import Mathlib

/-!
Verification of the `ascii-chart-formatter` repository: a shallow embedding of
`src/ascii_chart_formatter/chars.py` and `src/ascii_chart_formatter/formatter.py`
over `List Char`, together with theorems settling the specification's claims.

Python strings are embedded as `List Char`; Python's fallible single-index
accesses (`s[i]`, which raise `IndexError` out of bounds) are embedded with an
`Option`-valued lookup, so the whole pipeline lives in the `Option` monad and
its totality is a theorem rather than an assumption.  Bounded `while` loops are
embedded as fuel recursion; every call site supplies fuel that provably
suffices, and loops whose exhaustion would silently diverge from the source
return `none` on fuel exhaustion wherever they also perform checked indexing.
-/

namespace ACF

abbrev Str := List Char
abbrev Doc := List Str

/-- Checked list indexing: embeds Python's `s[i]` (which raises out of bounds). -/
def getO : List α → Nat → Option α
  | [], _ => none
  | a :: _, 0 => some a
  | _ :: l, n + 1 => getO l n

/-- Python slice `l[a:b]` (never raises; clamps to the list). -/
def slice (l : List α) (a b : Nat) : List α := (l.drop a).take (b - a)

/- ================= chars.py ================= -/

/-- `CORNER_CHARS` from `chars.py` (a Python set; order immaterial). -/
def cornerChars : Str :=
  ['+', '┌', '┐', '└', '┘', '├', '┤', '┬', '┴', '┼',
   '╔', '╗', '╚', '╝', '╠', '╣', '╦', '╩', '╬', '╭', '╮', '╰', '╯',
   '┏', '┓', '┗', '┛',
   '╒', '╕', '╘', '╛', '╓', '╖', '╙', '╜', '╞', '╡', '╤', '╧', '╪',
   '╟', '╢', '╥', '╨', '╫',
   '┍', '┎', '┑', '┒', '┕', '┖', '┙', '┚', '┝', '┞', '┟', '┠', '┡', '┢',
   '┥', '┦', '┧', '┨', '┩', '┪', '┭', '┮', '┯', '┰', '┱', '┲', '┵', '┶',
   '┷', '┸', '┹', '┺', '┽', '┾', '┿']

/-- `HORIZONTAL_FILL_CHARS` from `chars.py`. -/
def hFillChars : Str := ['-', '─', '━', '═', '┄', '┅', '┈', '┉']

/-- `VERTICAL_BORDER_CHARS` from `chars.py`. -/
def vertChars : Str := ['|', '│', '║', '┃', '┆', '┇', '┊', '┋']

def isCorner (c : Char) : Bool := decide (c ∈ cornerChars)

def isHFill (c : Char) : Bool := decide (c ∈ hFillChars)

/-- `is_vertical_border_char` from `chars.py`. -/
def isVert (c : Char) : Bool := decide (c ∈ vertChars)

/-- `NORMALIZATION_MAP` from `chars.py`, as an association list
(the Python dict has distinct single-character keys, so lookup semantics agree). -/
def normPairs : List (Char × Str) :=
  [('→', ['-', '>']), ('←', ['<', '-']), ('↑', ['^']), ('↓', ['v']),
   ('▶', ['>']), ('◀', ['<']), ('⟶', ['-', '-', '>']), ('⟵', ['<', '-', '-']),
   ('⇒', ['=', '>']), ('⇐', ['<', '=']), ('▼', ['v']), ('▲', ['^']),
   ('┌', ['+']), ('┐', ['+']), ('└', ['+']), ('┘', ['+']), ('├', ['+']),
   ('┤', ['+']), ('┬', ['+']), ('┴', ['+']), ('┼', ['+']),
   ('─', ['-']), ('│', ['|']),
   ('╔', ['+']), ('╗', ['+']), ('╚', ['+']), ('╝', ['+']), ('╠', ['+']),
   ('╣', ['+']), ('╦', ['+']), ('╩', ['+']), ('╬', ['+']),
   ('═', ['=']), ('║', ['|']),
   ('╭', ['+']), ('╮', ['+']), ('╰', ['+']), ('╯', ['+']),
   ('┏', ['+']), ('┓', ['+']), ('┗', ['+']), ('┛', ['+']),
   ('┃', ['|']), ('━', ['-']),
   ('╒', ['+']), ('╕', ['+']), ('╘', ['+']), ('╛', ['+']), ('╓', ['+']),
   ('╖', ['+']), ('╙', ['+']), ('╜', ['+']), ('╞', ['+']), ('╡', ['+']),
   ('╤', ['+']), ('╧', ['+']), ('╪', ['+']), ('╟', ['+']), ('╢', ['+']),
   ('╥', ['+']), ('╨', ['+']), ('╫', ['+']),
   ('┍', ['+']), ('┎', ['+']), ('┑', ['+']), ('┒', ['+']), ('┕', ['+']),
   ('┖', ['+']), ('┙', ['+']), ('┚', ['+']), ('┝', ['+']), ('┞', ['+']),
   ('┟', ['+']), ('┠', ['+']), ('┡', ['+']), ('┢', ['+']), ('┥', ['+']),
   ('┦', ['+']), ('┧', ['+']), ('┨', ['+']), ('┩', ['+']), ('┪', ['+']),
   ('┭', ['+']), ('┮', ['+']), ('┯', ['+']), ('┰', ['+']), ('┱', ['+']),
   ('┲', ['+']), ('┵', ['+']), ('┶', ['+']), ('┷', ['+']), ('┸', ['+']),
   ('┹', ['+']), ('┺', ['+']), ('┽', ['+']), ('┾', ['+']), ('┿', ['+']),
   ('┄', ['-']), ('┅', ['-']), ('┈', ['-']), ('┉', ['-']),
   ('┆', ['|']), ('┇', ['|']), ('┊', ['|']), ('┋', ['|'])]

def lookupC (c : Char) : List (Char × Str) → Option Str
  | [] => none
  | (k, v) :: rest => if c = k then some v else lookupC c rest

/-- `NORMALIZATION_MAP.get(ch, ch)` from `normalize_string`. -/
def normMap (c : Char) : Str :=
  match lookupC c normPairs with
  | some v => v
  | none => [c]

/-- `normalize_string` from `chars.py`. -/
def normalizeString : Str → Str
  | [] => []
  | c :: s => normMap c ++ normalizeString s

/- ================= basic string operations (Python built-ins) ================= -/

/-- Python `str.expandtabs(4)`: a tab advances the column to the next multiple
of 4; newline and carriage return reset the column. -/
def expandTabs : Str → Nat → Str
  | [], _ => []
  | c :: rest, col =>
    if c = '\t' then
      List.replicate (4 - col % 4) ' ' ++ expandTabs rest (col + (4 - col % 4))
    else if c = '\n' ∨ c = '\r' then c :: expandTabs rest 0
    else c :: expandTabs rest (col + 1)

/-- Python `text.split("\n")`. -/
def splitNl : Str → Doc
  | [] => [[]]
  | c :: rest =>
    if c = '\n' then [] :: splitNl rest
    else
      match splitNl rest with
      | [] => [[c]]
      | l :: ls => (c :: l) :: ls

/-- Python `"\n".join(lines)`. -/
def joinNl : Doc → Str
  | [] => []
  | [l] => l
  | l :: ls => l ++ '\n' :: joinNl ls

/-- Whitespace for Python's default `str.strip` family (ASCII part; the inputs
handled here contain no exotic Unicode whitespace). -/
def isStripSpace (c : Char) : Bool :=
  c = ' ' ∨ c = '\t' ∨ c = '\n' ∨ c = '\r' ∨ c = '\x0b' ∨ c = '\x0c'

/-- Python `str.rstrip()`. -/
def rstrip (s : Str) : Str := (s.reverse.dropWhile isStripSpace).reverse

/-- Python `str.lstrip()`. -/
def lstrip (s : Str) : Str := s.dropWhile isStripSpace

/-- East-Asian-width classification, modelled from the Python stdlib
`unicodedata.east_asian_width` (an external collaborator of the repository):
`true` on the principal Wide (W) and Fullwidth (F) ranges.  No theorem below
depends on the exact extent of the table; content in concrete inputs is ASCII. -/
def wideRanges : List (Nat × Nat) :=
  [(0x1100, 0x115F), (0x2E80, 0x303E), (0x3041, 0x33FF), (0x3400, 0x4DBF),
   (0x4E00, 0x9FFF), (0xA000, 0xA4CF), (0xA960, 0xA97F), (0xAC00, 0xD7A3),
   (0xF900, 0xFAFF), (0xFE10, 0xFE19), (0xFE30, 0xFE52), (0xFE54, 0xFE66),
   (0xFE68, 0xFE6B), (0xFF00, 0xFF60), (0xFFE0, 0xFFE6),
   (0x1B000, 0x1B001), (0x1F300, 0x1F64F), (0x1F900, 0x1F9FF),
   (0x20000, 0x2FFFD), (0x30000, 0x3FFFD)]

def isWideChar (c : Char) : Bool :=
  wideRanges.any (fun r => decide (r.1 ≤ c.toNat ∧ c.toNat ≤ r.2))

/-- Per-character display width as in `_display_width`: 2 for wide/fullwidth. -/
def charWidth (c : Char) : Nat := if isWideChar c then 2 else 1

/-- `_display_width` from `formatter.py`. -/
def displayWidth : Str → Nat
  | [] => 0
  | c :: s => charWidth c + displayWidth s

/-- The trimming loop of `_pad_or_trim_to_width`: while the display width
exceeds the target and the string ends with a space, drop the last character. -/
def trimTrail : Nat → Str → Nat → Str
  | 0, s, _ => s
  | fuel + 1, s, target =>
    if displayWidth s > target ∧ s.getLast? = some ' ' then
      trimTrail fuel s.dropLast target
    else s

/-- `_pad_or_trim_to_width` from `formatter.py` (`current` inlined as
`displayWidth s`). -/
def padOrTrim (s : Str) (target : Nat) : Str :=
  if displayWidth s < target then s ++ List.replicate (target - displayWidth s) ' '
  else if displayWidth s > target then trimTrail s.length s target
  else s

/- ================= formatter.py: data model ================= -/

/-- `BorderInfo` from `formatter.py`. -/
structure BorderInfo where
  line_index : Nat
  left_col : Nat
  right_col : Nat
  width : Nat
deriving DecidableEq, Repr

/- ================= formatter.py: border scanner ================= -/

/-- The inner `while j < len(line)` loop of `_find_border_segments`: consume
fill characters and T-junction corners; a true right corner (next char not a
fill) ends the run just past itself. -/
def scanRun (line : Str) : Nat → Nat → Nat
  | 0, j => j
  | fuel + 1, j =>
    if h : j < line.length then
      if isHFill (line.get ⟨j, h⟩) then scanRun line fuel (j + 1)
      else if isCorner (line.get ⟨j, h⟩) then
        if hj : j + 1 < line.length then
          if isHFill (line.get ⟨j + 1, hj⟩) then scanRun line fuel (j + 1)
          else j + 1
        else j + 1
      else j
    else j

/-- The outer loop of `_find_border_segments`.  The access `line[right_col]`
is the source's one unguarded read in this function; it is embedded with the
checked `getO` (fuel exhaustion also maps to `none`; the wrapper below always
supplies sufficient fuel, as the totality theorems prove). -/
def scanSegs (line : Str) (lineIdx : Nat) : Nat → Nat → Option (List BorderInfo)
  | 0, _ => none
  | fuel + 1, i =>
    if h : i < line.length then
      if isCorner (line.get ⟨i, h⟩) then
        (getO line (scanRun line (line.length + 1) (i + 1) - 1)).bind (fun crc =>
          if scanRun line (line.length + 1) (i + 1) - 1 > i + 1 ∧ isCorner crc then
            (BorderInfo.mk lineIdx i (scanRun line (line.length + 1) (i + 1) - 1)
                (scanRun line (line.length + 1) (i + 1) - 1 - i + 1) :: ·) <$>
              scanSegs line lineIdx fuel (scanRun line (line.length + 1) (i + 1) - 1)
          else scanSegs line lineIdx fuel (i + 1))
      else scanSegs line lineIdx fuel (i + 1)
    else some []

/-- `_find_border_segments` from `formatter.py`. -/
def findBorderSegments (line : Str) (lineIdx : Nat) : Option (List BorderInfo) :=
  scanSegs line lineIdx (line.length + 1) 0

/-- The recursion of `_find_borders`, carrying the running line index. -/
def findBordersGo : Nat → Doc → Option (List BorderInfo)
  | _, [] => some []
  | i, l :: rest => do
    let s ← findBorderSegments l i
    let r ← findBordersGo (i + 1) rest
    pure (s ++ r)

/-- `_find_borders` from `formatter.py`. -/
def findBorders (doc : Doc) : Option (List BorderInfo) := findBordersGo 0 doc

/- ================= formatter.py: box matcher ================= -/

/-- The shared-border reuse check of `_match_boxes`: the Python code *skips* a
bottom-used border unless `next_line < len(lines)` and `left_col <
len(lines[next_line])` and the character there is a vertical border; this
predicate is the conjunction of those three conditions. -/
def vertBelow (doc : Doc) (li lcol : Nat) : Bool :=
  match getO doc li with
  | none => false
  | some line =>
    match getO line lcol with
    | none => false
    | some c => isVert c

/-- The sort key `(line_index, left_col)` of `_match_boxes`, as a total
preorder.  The scanner never produces two segments with equal key, so the
stable Python `sorted` and `insertionSort` agree. -/
def borderLe (a b : BorderInfo) : Prop :=
  a.line_index < b.line_index ∨
    (a.line_index = b.line_index ∧ a.left_col ≤ b.left_col)

instance : DecidableRel borderLe := fun a b => by
  unfold borderLe; infer_instance

instance : IsTotal BorderInfo borderLe :=
  ⟨fun a b => by unfold borderLe; omega⟩

instance : IsTrans BorderInfo borderLe :=
  ⟨fun a b c hab hbc => by unfold borderLe at *; omega⟩

def sortBorders (bs : List BorderInfo) : List BorderInfo :=
  List.insertionSort borderLe bs

/-- Indexed enumeration (own definition, used in place of Python's implicit
list indices). -/
def enumFrom : Nat → List α → List (Nat × α)
  | _, [] => []
  | k, a :: l => (k, a) :: enumFrom (k + 1) l

/-- The inner `for j in range(i+1, ...)` search of `_match_boxes`: the nearest
not-yet-used bottom with identical `left_col` and `width`. -/
def findBottom (top : BorderInfo) (usedB : List Nat) :
    List (Nat × BorderInfo) → Option Nat
  | [] => none
  | (j, b) :: rest =>
    if usedB.contains j then findBottom top usedB rest
    else if b.left_col = top.left_col ∧ b.width = top.width then some j
    else findBottom top usedB rest

/-- The outer loop of `_match_boxes` over the sorted, enumerated borders. -/
def matchLoop (doc : Doc) :
    List (Nat × BorderInfo) → List Nat → List Nat → List (Nat × Nat) →
    List (Nat × Nat)
  | [], _, _, boxes => boxes
  | (i, top) :: todo, usedT, usedB, boxes =>
    if usedT.contains i then matchLoop doc todo usedT usedB boxes
    else if usedB.contains i ∧
        ¬ vertBelow doc (top.line_index + 1) top.left_col then
      matchLoop doc todo usedT usedB boxes
    else
      match findBottom top usedB todo with
      | some j => matchLoop doc todo (i :: usedT) (j :: usedB) (boxes ++ [(i, j)])
      | none => matchLoop doc todo usedT usedB boxes

/-- `_match_boxes` from `formatter.py`, returning matched boxes as pairs of
indices into the sorted border list. -/
def matchBoxesIdx (doc : Doc) (sorted : List BorderInfo) : List (Nat × Nat) :=
  matchLoop doc (enumFrom 0 sorted) [] [] []

/-- The properties that `matchBoxesIdx`'s result enjoys: indices in bounds and
increasing within a pair, matching `left_col`/`width`, tops and bottoms each
used at most once, and the shared-border reuse guard. -/
def BoxesOK (doc : Doc) (sorted : List BorderInfo)
    (boxes : List (Nat × Nat)) : Prop :=
  (∀ p ∈ boxes, p.1 < p.2 ∧ p.2 < sorted.length ∧
    ∃ bt bb, getO sorted p.1 = some bt ∧ getO sorted p.2 = some bb ∧
      bb.left_col = bt.left_col ∧ bb.width = bt.width ∧
      (p.1 ∈ boxes.map Prod.snd →
        vertBelow doc (bt.line_index + 1) bt.left_col = true)) ∧
  (boxes.map Prod.fst).Nodup ∧ (boxes.map Prod.snd).Nodup

/- ----------------- scanned borders: global facts ----------------- -/

/-- Validity of one scanned segment relative to its line. -/
def SegValid (line : Str) (b : BorderInfo) : Prop :=
  b.left_col + 1 < b.right_col ∧ b.right_col < line.length ∧
  b.width = b.right_col - b.left_col + 1 ∧
  (∃ hl : b.left_col < line.length, isCorner (line.get ⟨b.left_col, hl⟩) = true) ∧
  (∃ hr : b.right_col < line.length, isCorner (line.get ⟨b.right_col, hr⟩) = true)

/-- Distinctness of the matcher's sort keys `(line_index, left_col)`. -/
def keyNe (a b : BorderInfo) : Prop :=
  ¬(a.line_index = b.line_index ∧ a.left_col = b.left_col)

/- ================= formatter.py: content aligner ================= -/

/-- Forward search for a vertical border character:
`for idx in range(start, min(len(line), start + count))`. -/
def scanFwd (line : Str) : Nat → Nat → Option Nat
  | 0, _ => none
  | count + 1, idx =>
    if h : idx < line.length then
      if isVert (line.get ⟨idx, h⟩) then some idx
      else scanFwd line count (idx + 1)
    else none

/-- Backward search `for idx in range(left_col - 1, max(-1, left_col - 12), -1)`:
at most `count` positions downward, stopping at index 0.  The caller
(`_fix_content_line`) has already ensured `left_col < len(line)`, so every
visited index is in bounds. -/
def scanBwd (line : Str) : Nat → Nat → Option Nat
  | 0, _ => none
  | count + 1, idx =>
    if h : idx < line.length then
      if isVert (line.get ⟨idx, h⟩) then some idx
      else if idx = 0 then none
      else scanBwd line count (idx - 1)
    else none

/-- Locating the left border character in `_fix_content_line`: forward window
of 16 from `left_col`, then backward over the 11 positions below it. -/
def findLeft (line : Str) (left_col : Nat) : Option Nat :=
  match scanFwd line 16 left_col with
  | some i => some i
  | none => if left_col = 0 then none else scanBwd line 11 (left_col - 1)

/-- The right-border scan of `_fix_content_line` (also used verbatim by the
border-extension pass): track the vertical border character nearest to the
expected column `e`, stopping once the distance starts increasing. -/
def rightScan (line : Str) (e : Nat) :
    Nat → Nat → Option (Nat × Nat) → Option (Nat × Nat)
  | 0, _, best => best
  | fuel + 1, idx, best =>
    if h : idx < line.length then
      if isVert (line.get ⟨idx, h⟩) then
        match best with
        | none => rightScan line e fuel (idx + 1) (some (idx, Nat.dist idx e))
        | some (bi, bd) =>
          if Nat.dist idx e < bd then
            rightScan line e fuel (idx + 1) (some (idx, Nat.dist idx e))
          else if Nat.dist idx e > bd then some (bi, bd)
          else rightScan line e fuel (idx + 1) (some (bi, bd))
      else rightScan line e fuel (idx + 1) best
    else best

/-- The right border chosen for a located left border `li` and target width
`tw`; the expected column is `left_idx + target_width - 1` (the code
deliberately anchors at `left_idx`, not `left_col`). -/
def findRight (line : Str) (li tw : Nat) : Option Nat :=
  (rightScan line (li + tw - 1) (line.length + 1) (li + 1) none).map Prod.fst

/-- The prefix adjustment of `_fix_content_line`: truncate the prefix to
`left_col` when the box shifts left, pad with spaces when it shifts right. -/
def fixPre (line : Str) (left_col li : Nat) : Str :=
  if li > left_col then (line.take li).take left_col
  else if li < left_col then line.take li ++ List.replicate (left_col - li) ' '
  else line.take li

/-- Reassembly of the fixed line in `_fix_content_line`. -/
def fixAssemble (line : Str) (left_col target_width li ri : Nat)
    (lc rc : Char) : Str :=
  fixPre line left_col li ++
    (lc :: padOrTrim (slice line (li + 1) ri) (target_width - 2) ++ [rc]) ++
    line.drop (ri + 1)

/-- `_fix_content_line` from `formatter.py` (the `box` argument is passed as
its two used fields `box.top.left_col` and `box.top.width`). -/
def fixContentLine (line : Str) (left_col target_width : Nat) : Option Str :=
  if left_col ≥ line.length then some line
  else
    match findLeft line left_col with
    | none => some line
    | some li =>
      match findRight line li target_width with
      | none => some line
      | some ri =>
        (getO line li).bind fun lc =>
          (getO line ri).bind fun rc =>
            some (fixAssemble line left_col target_width li ri lc rc)

/-- Whether position `idx` of `line` holds a vertical border character. -/
def vertAt (line : Str) (idx : Nat) : Bool :=
  match getO line idx with
  | some c => isVert c
  | none => false

/-- Candidate right borders: vertical border characters strictly after the
located left border. -/
def isCand (line : Str) (li idx : Nat) : Prop :=
  li < idx ∧ vertAt line idx = true

instance (line : Str) (li idx : Nat) : Decidable (isCand line li idx) := by
  unfold isCand
  infer_instance

/- ----------------- pad/trim lemmas ----------------- -/

/-- Strings of narrow (single-column) characters. -/
def allNarrow (s : Str) : Prop := ∀ c ∈ s, isWideChar c = false

instance (s : Str) : Decidable (allNarrow s) := by
  unfold allNarrow
  infer_instance

/-- Number of trailing space characters. -/
def trailCount (s : Str) : Nat := (s.reverse.takeWhile (fun c => c == ' ')).length

/- ================= formatter.py: border extender (pass 1 of _fix_lines) ================= -/

/-- The fill-glyph detection of the extension branch: first horizontal fill
character strictly inside the border, default `'-'`. -/
def findFill (s : Str) : Char :=
  match s.find? isHFill with
  | some c => c
  | none => '-'

/-- The per-content-line requirement of the extension pass: locate the left
border (forward window only) and the nearest right border, then measure the
right-stripped interior plus 2; lines the pass `continue`s over contribute 0. -/
def lineNeeded (line : Str) (lcol tw : Nat) : Nat :=
  if lcol ≥ line.length then 0
  else
    match scanFwd line 16 lcol with
    | none => 0
    | some li =>
      match findRight line li tw with
      | none => 0
      | some ri => displayWidth (rstrip (slice line (li + 1) ri)) + 2

/-- Running maximum of `lineNeeded` over the box's content line indices
(Python starts from `max_needed = 0`). -/
def boxNeededGo (doc : Doc) (lcol tw : Nat) : List Nat → Option Nat
  | [] => some 0
  | li :: rest =>
    (getO doc li).bind fun line =>
      (boxNeededGo doc lcol tw rest).bind fun r =>
        some (max (lineNeeded line lcol tw) r)

def boxNeeded (doc : Doc) (top bot : BorderInfo) : Option Nat :=
  boxNeededGo doc top.left_col top.width
    (List.range' (top.line_index + 1) (bot.line_index - (top.line_index + 1)))

/-- Growing one border in place: insert `extra` fill characters immediately
before the right corner and update `right_col`/`width`. -/
def extendBorder (doc : Doc) (b : BorderInfo) (extra : Nat) :
    Option (Doc × BorderInfo) :=
  (getO doc b.line_index).bind fun bline =>
    some (doc.set b.line_index
        (bline.take b.right_col ++
          List.replicate extra (findFill (slice bline (b.left_col + 1) b.right_col)) ++
          bline.drop b.right_col),
      { b with right_col := b.right_col + extra, width := b.width + extra })

/-- One box of the extension pass, threading `(lines, borders, extended)`. -/
def extendStep (st : Doc × List BorderInfo × Bool) (p : Nat × Nat) :
    Option (Doc × List BorderInfo × Bool) :=
  (getO st.2.1 p.1).bind fun top =>
    (getO st.2.1 p.2).bind fun bot =>
      (boxNeeded st.1 top bot).bind fun needed =>
        if needed > top.width then
          (extendBorder st.1 top (needed - top.width)).bind fun r1 =>
            (extendBorder r1.1 bot (needed - top.width)).bind fun r2 =>
              some (r2.1, (st.2.1.set p.1 r1.2).set p.2 r2.2, true)
        else some (st.1, st.2.1, st.2.2)

def extendPass : (Doc × List BorderInfo × Bool) → List (Nat × Nat) →
    Option (Doc × List BorderInfo × Bool)
  | st, [] => some st
  | st, p :: rest => (extendStep st p).bind fun st2 => extendPass st2 rest

/- ================= formatter.py: pass 2 of _fix_lines (alignment) ================= -/

/-- Sort key `bottom.line_index - top.line_index` (innermost boxes first). -/
def spanLe (a b : BorderInfo × BorderInfo) : Prop :=
  a.2.line_index - a.1.line_index ≤ b.2.line_index - b.1.line_index

instance : DecidableRel spanLe := fun a b => by
  unfold spanLe; infer_instance

instance : IsTotal (BorderInfo × BorderInfo) spanLe :=
  ⟨fun a b => by unfold spanLe; omega⟩

instance : IsTrans (BorderInfo × BorderInfo) spanLe :=
  ⟨fun a b c hab hbc => by unfold spanLe at *; omega⟩

/-- Per-line sort key `(span, left_col)`. -/
def spanLcolLe (a b : BorderInfo × BorderInfo) : Prop :=
  a.2.line_index - a.1.line_index < b.2.line_index - b.1.line_index ∨
    (a.2.line_index - a.1.line_index = b.2.line_index - b.1.line_index ∧
      a.1.left_col ≤ b.1.left_col)

instance : DecidableRel spanLcolLe := fun a b => by
  unfold spanLcolLe; infer_instance

instance : IsTotal (BorderInfo × BorderInfo) spanLcolLe :=
  ⟨fun a b => by unfold spanLcolLe; omega⟩

instance : IsTrans (BorderInfo × BorderInfo) spanLcolLe :=
  ⟨fun a b c hab hbc => by unfold spanLcolLe at *; omega⟩

/-- Fix every box spanning one content line, left box first. -/
def alignLineBoxes (li : Nat) : Doc → List (BorderInfo × BorderInfo) → Option Doc
  | doc, [] => some doc
  | doc, b :: rest =>
    (getO doc li).bind fun line =>
      (fixContentLine line b.1.left_col b.1.width).bind fun line2 =>
        alignLineBoxes li (doc.set li line2) rest

/-- Iterate the spanned content lines in ascending order; for each, the boxes
spanning it sorted by `(span, left_col)` (a stable re-sort of the span-sorted
list, exactly as the Python dict-of-lists plus `sorted` produce). -/
def alignLines : Doc → List Nat → List (BorderInfo × BorderInfo) → Option Doc
  | doc, [], _ => some doc
  | doc, li :: rest, sb =>
    (alignLineBoxes li doc
        (List.insertionSort spanLcolLe
          (sb.filter (fun b => decide (b.1.line_index < li ∧ li < b.2.line_index))))).bind
      fun doc2 => alignLines doc2 rest sb

/-- Pass 2 of `_fix_lines`: boxes sorted innermost-first, content lines in
ascending order. -/
def alignPass (doc : Doc) (resolved : List (BorderInfo × BorderInfo)) : Option Doc :=
  alignLines doc
    (List.insertionSort (· ≤ ·)
      (((List.insertionSort spanLe resolved).map (fun b =>
        List.range' (b.1.line_index + 1) (b.2.line_index - (b.1.line_index + 1)))).flatten.dedup))
    (List.insertionSort spanLe resolved)

/- ================= formatter.py: _fix_lines and fix_ascii_art ================= -/

/-- Reading back the `BoxRegion` values (`box.top`, `box.bottom`) to hand to
the alignment pass. -/
def resolveBoxes (bs : List BorderInfo) :
    List (Nat × Nat) → Option (List (BorderInfo × BorderInfo))
  | [] => some []
  | p :: rest =>
    (getO bs p.1).bind fun tv =>
      (getO bs p.2).bind fun bv =>
        (resolveBoxes bs rest).bind fun r => some ((tv, bv) :: r)

/-- The `for _iteration in range(2)` loop of `_fix_lines`. -/
def fixLinesLoop : Nat → Doc → Option Doc
  | 0, doc => some doc
  | fuel + 1, doc =>
    (findBorders doc).bind fun borders =>
      if (matchBoxesIdx doc (sortBorders borders)).isEmpty then some doc
      else
        (extendPass (doc, sortBorders borders, false)
            (matchBoxesIdx doc (sortBorders borders))).bind fun st =>
          if st.2.2 then fixLinesLoop fuel st.1
          else
            (resolveBoxes st.2.1 (matchBoxesIdx doc (sortBorders borders))).bind
              fun resolved => alignPass st.1 resolved

/-- `_fix_lines` from `formatter.py`. -/
def fixLines (doc : Doc) : Option Doc :=
  fixLinesLoop 2 (doc.map (fun l => expandTabs l 0))

/-- `_has_box_chars` from `formatter.py`. -/
def hasBoxChars (line : Str) : Bool :=
  line.any (fun c => isCorner c || isHFill c || isVert c)

/-- The three-backtick code-fence marker. -/
def btMarker : Str := ['\x60', '\x60', '\x60']

/-- The three-tilde code-fence marker. -/
def tildeMarker : Str := ['~', '~', '~']

/-- The inner `while` of the fence finder: first line at or after `i` whose
left-stripped text starts with the fence marker, else `doc.length`. -/
def fenceScan (doc : Doc) (marker : Str) : Nat → Nat → Nat
  | 0, i => i
  | fuel + 1, i =>
    if h : i < doc.length then
      if List.isPrefixOf marker (lstrip (doc.get ⟨i, h⟩)) then i
      else fenceScan doc marker fuel (i + 1)
    else i

/-- The fence-region pass of `fix_ascii_art` in markdown mode: code-fence
regions (interior lines only) that contain box-drawing characters; an
unterminated fence extends to the end of the document. -/
def findFences (doc : Doc) : Nat → Nat → List (Nat × Nat)
  | 0, _ => []
  | fuel + 1, i =>
    if h : i < doc.length then
      match (if List.isPrefixOf btMarker (lstrip (doc.get ⟨i, h⟩)) then some btMarker
             else if List.isPrefixOf tildeMarker (lstrip (doc.get ⟨i, h⟩)) then some tildeMarker
             else none) with
      | none => findFences doc fuel (i + 1)
      | some m =>
        if fenceScan doc m (doc.length + 1) (i + 1) < doc.length then
          if (slice doc (i + 1) (fenceScan doc m (doc.length + 1) (i + 1))).any hasBoxChars then
            (i + 1, fenceScan doc m (doc.length + 1) (i + 1) - 1) ::
              findFences doc fuel (fenceScan doc m (doc.length + 1) (i + 1) + 1)
          else findFences doc fuel (fenceScan doc m (doc.length + 1) (i + 1) + 1)
        else
          if (slice doc (i + 1) doc.length).any hasBoxChars then
            (i + 1, doc.length - 1) :: findFences doc fuel (doc.length - 1 + 1)
          else findFences doc fuel (doc.length - 1 + 1)
    else []

/-- Indices of unfenced lines containing box characters (document order). -/
def unfencedBoxLines (doc : Doc) (fences : List (Nat × Nat)) : List Nat :=
  (enumFrom 0 doc).filterMap (fun p =>
    if (!(fences.any (fun r => decide (r.1 ≤ p.1 ∧ p.1 ≤ r.2))) && hasBoxChars p.2) then
      some p.1
    else none)

/-- Grouping the auto-detected diagram lines, bridging gaps of up to two
non-diagram lines (`idx - end <= 3`). -/
def autoRegionsGo : List Nat → Nat → Nat → List (Nat × Nat)
  | [], s, e => [(s, e)]
  | idx :: rest, s, e =>
    if idx - e ≤ 3 then autoRegionsGo rest s idx
    else (s, e) :: autoRegionsGo rest idx idx

def autoRegions : List Nat → List (Nat × Nat)
  | [] => []
  | c :: rest => autoRegionsGo rest c c

/-- Fixing each detected region independently; the slice assignment
`lines[start:end+1] = fixed` is length-preserving because `_fix_lines`
preserves the line count. -/
def applyRegions : Doc → List (Nat × Nat) → Option Doc
  | doc, [] => some doc
  | doc, r :: rest =>
    (fixLines (slice doc r.1 (r.2 + 1))).bind fun fixed =>
      applyRegions (doc.take r.1 ++ fixed ++ doc.drop (r.2 + 1)) rest

/-- The code-fence regions the markdown pass records for `lines`. -/
def mdFences (lines : Doc) : List (Nat × Nat) :=
  findFences lines (lines.length + 1) 0

/-- All regions the markdown pass fixes: box-containing fences, then
auto-detected diagram regions. -/
def mdRegions (lines : Doc) : List (Nat × Nat) :=
  mdFences lines ++ autoRegions (unfencedBoxLines lines (mdFences lines))

/-- `fix_ascii_art` from `formatter.py`: the primary entry point. -/
def fixAsciiArt (text : Str) (normalize markdown : Bool) : Option Str :=
  if markdown then
    (applyRegions (splitNl (expandTabs (if normalize then normalizeString text else text) 0))
        (mdRegions (splitNl (expandTabs (if normalize then normalizeString text else text) 0)))).map
      joinNl
  else
    (fixLines (splitNl (expandTabs (if normalize then normalizeString text else text) 0))).map joinNl

/- ================= the claims ================= -/

/-- The input on which the two-iteration extension cap is insufficient. -/
def c1In : Str :=
  "+--------+\n| a |\n+--------+\n| xxxxxxxxxxxx |\n+----+\n| yyyyyyy |\n+----+".data

/-- What one application of `fix_ascii_art` produces on `c1In`. -/
def c1Once : Str :=
  "+--------+\n| a |\n+-------------+\n| xxxxxxxxxxxx |\n+-------------+\n| yyyyyyy |\n+--------+".data

/-- What a second application produces: the remaining borders are extended and
the content lines are finally aligned. -/
def c1Twice : Str :=
  "+-------------+\n| a           |\n+-------------+\n| xxxxxxxxxxxx|\n+-------------+\n| yyyyyyy     |\n+-------------+".data

/-- The input whose content line has no border characters at all. -/
def c2In : Str := "+--------+\n  hello   \n+--------+".data

/-- The input with two non-space characters before the drifted left border. -/
def c3In : Str := "+----+\nab| h |\n+----+".data

/-- The scanned borders of the stacked shared-border document used as the C6
witness. -/
def c6bs : List BorderInfo :=
  [BorderInfo.mk 0 0 3 4, BorderInfo.mk 2 0 3 4, BorderInfo.mk 4 0 3 4]

theorem getO_eq_get (l : List α) (i : Nat) (h : i < l.length) :
    getO l i = some (l.get ⟨i, h⟩) := by
  induction l generalizing i with
  | nil => simp at h
  | cons a t ih =>
    cases i with
    | zero => rfl
    | succ n => exact ih n (by simpa using h)

theorem getO_isSome_of_lt (l : List α) (i : Nat) (h : i < l.length) :
    (getO l i).isSome := by
  rw [getO_eq_get l i h]; rfl

theorem lt_of_getO_eq_some {l : List α} {i : Nat} {a : α}
    (h : getO l i = some a) : i < l.length := by
  induction l generalizing i with
  | nil => simp [getO] at h
  | cons b t ih =>
    cases i with
    | zero => simp
    | succ n => exact Nat.succ_lt_succ (ih h)

theorem mem_of_getO_eq_some {l : List α} {i : Nat} {a : α}
    (h : getO l i = some a) : a ∈ l := by
  induction l generalizing i with
  | nil => simp [getO] at h
  | cons b t ih =>
    cases i with
    | zero => simp [getO] at h; simp [h]
    | succ n => exact List.mem_cons_of_mem _ (ih h)

theorem getO_append_left {l m : List α} {i : Nat} (h : i < l.length) :
    getO (l ++ m) i = getO l i := by
  induction l generalizing i with
  | nil => simp at h
  | cons a t ih =>
    cases i with
    | zero => rfl
    | succ n => exact ih (by simpa using h)

theorem getO_append_right (l m : List α) (i : Nat) :
    getO (l ++ m) (l.length + i) = getO m i := by
  induction l with
  | nil => simp
  | cons a t ih =>
    have h1 : (a :: t).length + i = (t.length + i) + 1 := by simp; omega
    rw [List.cons_append, h1]
    exact ih

theorem getO_set_ne (l : List α) (i j : Nat) (v : α) (h : i ≠ j) :
    getO (l.set j v) i = getO l i := by
  induction l generalizing i j with
  | nil => rfl
  | cons a t ih =>
    cases j with
    | zero => cases i with
      | zero => exact absurd rfl h
      | succ n => rfl
    | succ m => cases i with
      | zero => rfl
      | succ n => exact ih n m (fun hnm => h (by simp [hnm]))

theorem splitNl_ne_nil (s : Str) : splitNl s ≠ [] := by
  cases s with
  | nil => simp [splitNl]
  | cons c rest =>
    simp only [splitNl]
    split
    · simp
    · cases h : splitNl rest <;> simp

theorem joinNl_splitNl (s : Str) : joinNl (splitNl s) = s := by
  induction s with
  | nil => rfl
  | cons c rest ih =>
    simp only [splitNl]
    split
    · rename_i hc
      subst hc
      cases h : splitNl rest with
      | nil => exact absurd h (splitNl_ne_nil rest)
      | cons l ls => rw [h] at ih; simp [joinNl, ih]
    · cases h : splitNl rest with
      | nil => exact absurd h (splitNl_ne_nil rest)
      | cons l ls =>
        rw [h] at ih
        cases ls with
        | nil => simp [joinNl] at ih ⊢; exact ih
        | cons l2 ls2 => simp [joinNl] at ih ⊢; rw [ih]

/- ----------------- scanner lemmas ----------------- -/

theorem scanRun_bounds (line : Str) (fuel j : Nat) :
    j ≤ scanRun line fuel j ∧ scanRun line fuel j ≤ max j line.length := by
  induction fuel generalizing j with
  | zero => exact ⟨Nat.le_refl _, Nat.le_max_left _ _⟩
  | succ fuel ih =>
    simp only [scanRun]
    split
    · rename_i h
      have hmax : max (j + 1) line.length = line.length := by omega
      split
      · have := ih (j + 1)
        rw [hmax] at this
        exact ⟨Nat.le_trans (Nat.le_succ j) this.1, by omega⟩
      · split
        · split
          · split
            · have := ih (j + 1)
              rw [hmax] at this
              exact ⟨Nat.le_trans (Nat.le_succ j) this.1, by omega⟩
            · exact ⟨Nat.le_succ j, by omega⟩
          · exact ⟨Nat.le_succ j, by omega⟩
        · exact ⟨Nat.le_refl _, Nat.le_max_left _ _⟩
    · exact ⟨Nat.le_refl _, Nat.le_max_left _ _⟩

/-- Validity of every segment the scanner emits, plus positional facts used by
the matcher development: segments start at or after the scan position, are
pairwise strictly increasing in `left_col`, and with enough fuel the scan
succeeds. -/
theorem scanSegs_spec (line : Str) (lineIdx : Nat) :
    ∀ fuel i, line.length - i < fuel →
    ∃ segs, scanSegs line lineIdx fuel i = some segs ∧
      (∀ b ∈ segs,
        i ≤ b.left_col ∧ b.left_col + 1 < b.right_col ∧
        b.right_col < line.length ∧ b.width = b.right_col - b.left_col + 1 ∧
        b.line_index = lineIdx ∧
        (∃ hl : b.left_col < line.length, isCorner (line.get ⟨b.left_col, hl⟩)) ∧
        (∃ hr : b.right_col < line.length, isCorner (line.get ⟨b.right_col, hr⟩))) ∧
      segs.Pairwise (fun a b => a.left_col < b.left_col) := by
  intro fuel
  induction fuel with
  | zero => intro i hi; omega
  | succ fuel ih =>
    intro i hi
    simp only [scanSegs]
    split
    · rename_i h
      split
      · rename_i hcorn
        have hrun := scanRun_bounds line (line.length + 1) (i + 1)
        have hrc_lt : scanRun line (line.length + 1) (i + 1) - 1 < line.length := by
          omega
        rw [getO_eq_get line _ hrc_lt, Option.some_bind]
        split
        · rename_i hcond
          obtain ⟨hgt, hcrc⟩ := hcond
          obtain ⟨segs, hsegs, hval, hpw⟩ :=
            ih (scanRun line (line.length + 1) (i + 1) - 1) (by omega)
          refine ⟨_, by rw [hsegs]; rfl, ?_, ?_⟩
          · intro b hb
            rcases List.mem_cons.mp hb with hb | hb
            · subst hb
              exact ⟨Nat.le_refl _, hgt, hrc_lt, rfl, rfl,
                ⟨h, hcorn⟩, ⟨hrc_lt, hcrc⟩⟩
            · have hv := hval b hb
              exact ⟨by have := hv.1; omega, hv.2.1, hv.2.2.1, hv.2.2.2.1,
                hv.2.2.2.2.1, hv.2.2.2.2.2.1, hv.2.2.2.2.2.2⟩
          · refine List.pairwise_cons.mpr ⟨?_, hpw⟩
            intro b hb
            have h1 := (hval b hb).1
            show i < b.left_col
            omega
        · obtain ⟨segs, hsegs, hval, hpw⟩ := ih (i + 1) (by omega)
          refine ⟨segs, hsegs, ?_, hpw⟩
          intro b hb
          have hv := hval b hb
          exact ⟨by have := hv.1; omega, hv.2⟩
      · obtain ⟨segs, hsegs, hval, hpw⟩ := ih (i + 1) (by omega)
        refine ⟨segs, hsegs, ?_, hpw⟩
        intro b hb
        have hv := hval b hb
        exact ⟨by have := hv.1; omega, hv.2⟩
    · exact ⟨[], rfl, by simp, List.Pairwise.nil⟩

/-- A line without corner characters yields no segments (with enough fuel). -/
theorem scanSegs_no_corner (line : Str) (lineIdx : Nat)
    (hnc : ∀ c ∈ line, isCorner c = false) :
    ∀ fuel i, line.length - i < fuel →
      scanSegs line lineIdx fuel i = some [] := by
  intro fuel
  induction fuel with
  | zero => intro i hi; omega
  | succ fuel ih =>
    intro i hi
    simp only [scanSegs]
    split
    · rename_i h
      rw [hnc (line.get ⟨i, h⟩) (line.get_mem i h)]
      simp only [Bool.false_eq_true, if_false]
      exact ih (i + 1) (by omega)
    · rfl

/- ----------------- matcher lemmas ----------------- -/

theorem enumFrom_mem {l : List α} :
    ∀ {k j : Nat} {a : α}, (j, a) ∈ enumFrom k l → k ≤ j ∧ getO l (j - k) = some a := by
  induction l with
  | nil => intro k j a h; simp [enumFrom] at h
  | cons x t ih =>
    intro k j a h
    rcases List.mem_cons.mp h with h | h
    · injection h with h1 h2
      subst h1; subst h2
      simp [getO]
    · have := ih h
      refine ⟨by omega, ?_⟩
      have hk : j - k = (j - (k + 1)) + 1 := by omega
      rw [hk]
      exact this.2

theorem enumFrom_pairwise (l : List α) :
    ∀ k, (enumFrom k l).Pairwise (fun p q => p.1 < q.1) := by
  induction l with
  | nil => intro k; simp [enumFrom]
  | cons x t ih =>
    intro k
    refine List.pairwise_cons.mpr ⟨?_, ih (k + 1)⟩
    intro q hq
    have := enumFrom_mem hq
    omega

theorem findBottom_spec (top : BorderInfo) (usedB : List Nat) :
    ∀ rest : List (Nat × BorderInfo), ∀ j,
      findBottom top usedB rest = some j →
      j ∉ usedB ∧ ∃ bb, (j, bb) ∈ rest ∧
        bb.left_col = top.left_col ∧ bb.width = top.width := by
  intro rest
  induction rest with
  | nil => intro j h; simp [findBottom] at h
  | cons p t ih =>
    intro j h
    obtain ⟨i, b⟩ := p
    simp only [findBottom] at h
    split at h
    · obtain ⟨h1, bb, h2, h3⟩ := ih j h
      exact ⟨h1, bb, List.mem_cons_of_mem _ h2, h3⟩
    · rename_i hnu
      split at h
      · rename_i hcond
        obtain rfl : i = j := Option.some.inj h
        refine ⟨?_, b, List.mem_cons_self .., hcond⟩
        intro hmem
        exact hnu (by simpa using hmem)
      · obtain ⟨h1, bb, h2, h3⟩ := ih j h
        exact ⟨h1, bb, List.mem_cons_of_mem _ h2, h3⟩

theorem matchLoop_spec (doc : Doc) (sorted : List BorderInfo) :
    ∀ (todo : List (Nat × BorderInfo)) (usedT usedB : List Nat)
      (boxes : List (Nat × Nat)),
    (∀ p ∈ boxes, p.1 < p.2 ∧ p.2 < sorted.length ∧
      ∃ bt bb, getO sorted p.1 = some bt ∧ getO sorted p.2 = some bb ∧
        bb.left_col = bt.left_col ∧ bb.width = bt.width ∧
        (p.1 ∈ usedB → vertBelow doc (bt.line_index + 1) bt.left_col = true)) →
    (boxes.map Prod.fst).Nodup →
    (boxes.map Prod.snd).Nodup →
    (∀ j, j ∈ usedB ↔ j ∈ boxes.map Prod.snd) →
    (∀ q ∈ todo, ∀ p ∈ boxes, p.1 < q.1) →
    todo.Pairwise (fun p q => p.1 < q.1) →
    (∀ q ∈ todo, getO sorted q.1 = some q.2) →
    BoxesOK doc sorted (matchLoop doc todo usedT usedB boxes) := by
  intro todo
  induction todo with
  | nil =>
    intro usedT usedB boxes hI1 hI3 hI4 hI5 _ _ _
    refine ⟨?_, hI3, hI4⟩
    intro p hp
    obtain ⟨h1, h2, bt, bb, h3, h4, h5, h6, h7⟩ := hI1 p hp
    exact ⟨h1, h2, bt, bb, h3, h4, h5, h6, fun hm => h7 ((hI5 p.1).mpr hm)⟩
  | cons q todo ih =>
    intro usedT usedB boxes hI1 hI3 hI4 hI5 hI2 hI7p hI7g
    obtain ⟨i, top⟩ := q
    have hpw := List.pairwise_cons.mp hI7p
    simp only [matchLoop]
    split
    · exact ih usedT usedB boxes hI1 hI3 hI4 hI5
        (fun q hq p hp => hI2 q (List.mem_cons_of_mem _ hq) p hp) hpw.2
        (fun q hq => hI7g q (List.mem_cons_of_mem _ hq))
    · split
      · exact ih usedT usedB boxes hI1 hI3 hI4 hI5
          (fun q hq p hp => hI2 q (List.mem_cons_of_mem _ hq) p hp) hpw.2
          (fun q hq => hI7g q (List.mem_cons_of_mem _ hq))
      · rename_i hproc
        split
        · rename_i j hfb
          obtain ⟨hjnotB, bb, hjmem, hbbl, hbbw⟩ := findBottom_spec top usedB todo j hfb
          have hij : i < j := hpw.1 (j, bb) hjmem
          have hjget : getO sorted j = some bb :=
            hI7g (j, bb) (List.mem_cons_of_mem _ hjmem)
          have higet : getO sorted i = some top := hI7g (i, top) (List.mem_cons_self ..)
          have htops_lt : ∀ p ∈ boxes, p.1 < i :=
            fun p hp => hI2 (i, top) (List.mem_cons_self ..) p hp
          have hguard : i ∈ usedB → vertBelow doc (top.line_index + 1) top.left_col = true := by
            intro hmem
            by_contra hv
            exact hproc ⟨by simpa using hmem, by simpa using hv⟩
          apply ih (i :: usedT) (j :: usedB) (boxes ++ [(i, j)])
          · intro p hp
            rcases List.mem_append.mp hp with hp | hp
            · obtain ⟨h1, h2, bt, bb2, h3, h4, h5, h6, h7⟩ := hI1 p hp
              refine ⟨h1, h2, bt, bb2, h3, h4, h5, h6, ?_⟩
              intro hm
              rcases List.mem_cons.mp hm with hm | hm
              · exact absurd hm (by have := htops_lt p hp; omega)
              · exact h7 hm
            · obtain rfl : p = (i, j) := by simpa using hp
              refine ⟨hij, lt_of_getO_eq_some hjget, top, bb, higet, hjget,
                hbbl, hbbw, ?_⟩
              intro hm
              rcases List.mem_cons.mp hm with hm | hm
              · exact absurd hm (by omega)
              · exact hguard hm
          · rw [List.map_append]
            refine List.Nodup.append hI3 (by simp) ?_
            intro a ha hb
            simp only [List.map_cons, List.map_nil, List.mem_singleton] at hb
            subst hb
            obtain ⟨p, hp, hpa⟩ := List.mem_map.mp ha
            have := htops_lt p hp
            omega
          · rw [List.map_append]
            refine List.Nodup.append hI4 (by simp) ?_
            intro a ha hb
            simp only [List.map_cons, List.map_nil, List.mem_singleton] at hb
            subst hb
            exact hjnotB ((hI5 a).mpr ha)
          · intro k
            constructor
            · intro hk
              rcases List.mem_cons.mp hk with rfl | hk
              · rw [List.map_append]
                exact List.mem_append_right _ (by simp)
              · rw [List.map_append]
                exact List.mem_append_left _ ((hI5 k).mp hk)
            · intro hk
              rw [List.map_append] at hk
              rcases List.mem_append.mp hk with hk | hk
              · exact List.mem_cons_of_mem _ ((hI5 k).mpr hk)
              · simp at hk
                subst hk
                exact List.mem_cons_self ..
          · intro q hq p hp
            rcases List.mem_append.mp hp with hp | hp
            · exact hI2 q (List.mem_cons_of_mem _ hq) p hp
            · obtain rfl : p = (i, j) := by simpa using hp
              exact hpw.1 q hq
          · exact hpw.2
          · intro q hq
            exact hI7g q (List.mem_cons_of_mem _ hq)
        · exact ih usedT usedB boxes hI1 hI3 hI4 hI5
            (fun q hq p hp => hI2 q (List.mem_cons_of_mem _ hq) p hp) hpw.2
            (fun q hq => hI7g q (List.mem_cons_of_mem _ hq))

theorem matchBoxesIdx_spec (doc : Doc) (sorted : List BorderInfo) :
    BoxesOK doc sorted (matchBoxesIdx doc sorted) := by
  apply matchLoop_spec
  · intro p hp; simp at hp
  · simp
  · simp
  · intro j; simp
  · intro q hq p hp; simp at hp
  · exact enumFrom_pairwise sorted 0
  · intro q hq
    obtain ⟨h1, h2⟩ := enumFrom_mem hq
    simpa using h2

theorem keyNe_symm : Symmetric keyNe := by
  intro a b h hc
  exact h ⟨hc.1.symm, hc.2.symm⟩

theorem findBordersGo_spec (ls : Doc) :
    ∀ i, ∃ bs, findBordersGo i ls = some bs ∧
      (∀ b ∈ bs, i ≤ b.line_index ∧ b.line_index < i + ls.length ∧
        ∃ line, getO ls (b.line_index - i) = some line ∧ SegValid line b) ∧
      bs.Pairwise keyNe := by
  induction ls with
  | nil => intro i; exact ⟨[], rfl, by simp, List.Pairwise.nil⟩
  | cons l rest ih =>
    intro i
    obtain ⟨segs, hsegs, hval, hpw⟩ :=
      scanSegs_spec l i (l.length + 1) 0 (by omega)
    obtain ⟨bs, hbs, hval2, hpw2⟩ := ih (i + 1)
    refine ⟨segs ++ bs, ?_, ?_, ?_⟩
    · show findBordersGo i (l :: rest) = some (segs ++ bs)
      simp only [findBordersGo, findBorderSegments]
      rw [hsegs, hbs]
      rfl
    · intro b hb
      rcases List.mem_append.mp hb with hb | hb
      · obtain ⟨_, h2, h3, h4, h5, h6, h7⟩ := hval b hb
        refine ⟨by omega, by simp; omega, l, ?_, h2, h3, h4, h6, h7⟩
        rw [h5]
        simp [getO]
      · obtain ⟨h1, h2, line, h3, h4⟩ := hval2 b hb
        refine ⟨by omega, by simp; omega, line, ?_, h4⟩
        have hk : b.line_index - i = (b.line_index - (i + 1)) + 1 := by omega
        rw [hk]
        exact h3
    · refine List.pairwise_append.mpr ⟨?_, hpw2, ?_⟩
      · exact hpw.imp (fun {a b} h => fun hc => by omega)
      · intro a ha b hb
        have h1 := (hval a ha).2.2.2.2.1
        have h2 := (hval2 b hb).1
        intro hc
        omega

theorem findBorders_spec (doc : Doc) :
    ∃ bs, findBorders doc = some bs ∧
      (∀ b ∈ bs, b.line_index < doc.length ∧
        ∃ line, getO doc b.line_index = some line ∧ SegValid line b) ∧
      bs.Pairwise keyNe := by
  obtain ⟨bs, h1, h2, h3⟩ := findBordersGo_spec doc 0
  refine ⟨bs, h1, ?_, h3⟩
  intro b hb
  obtain ⟨_, hlt, line, hget, hv⟩ := h2 b hb
  exact ⟨by omega, line, by simpa using hget, hv⟩

theorem getO_get_of_eq_some {l : List α} {i : Nat} {a : α}
    (h : getO l i = some a) : ∃ hi : i < l.length, l.get ⟨i, hi⟩ = a := by
  have hi := lt_of_getO_eq_some h
  rw [getO_eq_get l i hi] at h
  exact ⟨hi, Option.some.inj h⟩

/-- In the sorted border list of a real scan, a later entry with the same
`left_col` sits on a strictly later line. -/
theorem sorted_key_lt (doc : Doc) (bs : List BorderInfo)
    (h : findBorders doc = some bs) :
    ∀ t b bt bb, t < b →
      getO (sortBorders bs) t = some bt → getO (sortBorders bs) b = some bb →
      bb.left_col = bt.left_col → bt.line_index < bb.line_index := by
  intro t b bt bb htb hgt hgb hlc
  obtain ⟨bs0, h0, _, hkey⟩ := findBorders_spec doc
  rw [h] at h0
  obtain rfl : bs = bs0 := Option.some.inj h0
  have hsorted : List.Sorted borderLe (sortBorders bs) :=
    List.sorted_insertionSort borderLe bs
  have hperm : List.Perm (sortBorders bs) bs := List.perm_insertionSort borderLe bs
  have hkey2 : (sortBorders bs).Pairwise keyNe :=
    (hperm.pairwise_iff (fun {x y} hxy => keyNe_symm hxy)).mpr hkey
  obtain ⟨ht, hgt2⟩ := getO_get_of_eq_some hgt
  obtain ⟨hb, hgb2⟩ := getO_get_of_eq_some hgb
  have hle : borderLe bt bb := by
    have := (List.pairwise_iff_get.mp hsorted) ⟨t, ht⟩ ⟨b, hb⟩ htb
    rwa [hgt2, hgb2] at this
  have hne : keyNe bt bb := by
    have := (List.pairwise_iff_get.mp hkey2) ⟨t, ht⟩ ⟨b, hb⟩ htb
    rwa [hgt2, hgb2] at this
  unfold borderLe at hle
  unfold keyNe at hne
  rcases hle with hle | ⟨heq, _⟩
  · exact hle
  · exact absurd ⟨heq, hlc.symm⟩ hne

/-- Claim C6: in every box list produced by matching the scanned, sorted
borders, each border is used as a top at most once and as a bottom at most
once; a segment reused as a top after serving as a bottom passes the
vertical-border-beneath check; and every matched pair has equal `left_col`
and `width` with the bottom on a strictly later line than the top. -/
theorem c6_matcher_invariant (doc : Doc) (bs : List BorderInfo)
    (h : findBorders doc = some bs) :
    ((matchBoxesIdx doc (sortBorders bs)).map Prod.fst).Nodup ∧
    ((matchBoxesIdx doc (sortBorders bs)).map Prod.snd).Nodup ∧
    (∀ p ∈ matchBoxesIdx doc (sortBorders bs),
      ∃ bt bb, getO (sortBorders bs) p.1 = some bt ∧
        getO (sortBorders bs) p.2 = some bb ∧
        bb.left_col = bt.left_col ∧ bb.width = bt.width ∧
        bt.line_index < bb.line_index ∧
        (p.1 ∈ (matchBoxesIdx doc (sortBorders bs)).map Prod.snd →
          vertBelow doc (bt.line_index + 1) bt.left_col = true)) := by
  obtain ⟨hall, hnt, hnb⟩ := matchBoxesIdx_spec doc (sortBorders bs)
  refine ⟨hnt, hnb, ?_⟩
  intro p hp
  obtain ⟨h1, h2, bt, bb, h3, h4, h5, h6, h7⟩ := hall p hp
  exact ⟨bt, bb, h3, h4, h5, h6,
    sorted_key_lt doc bs h p.1 p.2 bt bb h1 h3 h4 h5, h7⟩

/- ----------------- aligner lemmas ----------------- -/

theorem scanFwd_spec (line : Str) :
    ∀ count idx i, scanFwd line count idx = some i →
      idx ≤ i ∧ i < line.length ∧
      ∃ h : i < line.length, isVert (line.get ⟨i, h⟩) = true := by
  intro count
  induction count with
  | zero => intro idx i h; simp [scanFwd] at h
  | succ count ih =>
    intro idx i h
    simp only [scanFwd] at h
    split at h
    · rename_i hlt
      split at h
      · rename_i hv
        obtain rfl : idx = i := Option.some.inj h
        exact ⟨Nat.le_refl _, hlt, hlt, hv⟩
      · obtain ⟨h1, h2, h3⟩ := ih (idx + 1) i h
        exact ⟨by omega, h2, h3⟩
    · exact absurd h (by simp)

theorem scanBwd_spec (line : Str) :
    ∀ count idx i, scanBwd line count idx = some i →
      i ≤ idx ∧ i < line.length ∧
      ∃ h : i < line.length, isVert (line.get ⟨i, h⟩) = true := by
  intro count
  induction count with
  | zero => intro idx i h; simp [scanBwd] at h
  | succ count ih =>
    intro idx i h
    simp only [scanBwd] at h
    split at h
    · rename_i hlt
      split at h
      · rename_i hv
        obtain rfl : idx = i := Option.some.inj h
        exact ⟨Nat.le_refl _, hlt, hlt, hv⟩
      · split at h
        · exact absurd h (by simp)
        · obtain ⟨h1, h2, h3⟩ := ih (idx - 1) i h
          exact ⟨by omega, h2, h3⟩
    · exact absurd h (by simp)

theorem findLeft_spec (line : Str) (lcol li : Nat)
    (h : findLeft line lcol = some li) :
    li < line.length ∧ ∃ hl : li < line.length, isVert (line.get ⟨li, hl⟩) = true := by
  unfold findLeft at h
  split at h
  · rename_i i hfwd
    obtain ⟨_, h2, h3⟩ := scanFwd_spec line 16 lcol i hfwd
    obtain rfl := Option.some.inj h
    exact ⟨h2, h3⟩
  · split at h
    · exact absurd h (by simp)
    · obtain ⟨_, h2, h3⟩ := scanBwd_spec line 11 (lcol - 1) li h
      exact ⟨h2, h3⟩

theorem vertAt_iff (line : Str) (idx : Nat) :
    vertAt line idx = true ↔
      ∃ h : idx < line.length, isVert (line.get ⟨idx, h⟩) = true := by
  unfold vertAt
  constructor
  · intro h
    split at h
    · rename_i c hc
      obtain ⟨hi, hg⟩ := getO_get_of_eq_some hc
      exact ⟨hi, by rw [hg]; exact h⟩
    · simp at h
  · rintro ⟨hi, hv⟩
    rw [getO_eq_get line idx hi]
    exact hv

theorem rightScan_oob (line : Str) (e fuel idx : Nat) (best : Option (Nat × Nat))
    (h : ¬ idx < line.length) :
    rightScan line e (fuel + 1) idx best = best := by
  simp only [rightScan]
  rw [dif_neg h]

theorem rightScan_notvert (line : Str) (e fuel idx : Nat) (best : Option (Nat × Nat))
    (h : idx < line.length) (hv : ¬ isVert (line.get ⟨idx, h⟩) = true) :
    rightScan line e (fuel + 1) idx best = rightScan line e fuel (idx + 1) best := by
  simp only [rightScan]
  rw [dif_pos h, if_neg hv]

theorem rightScan_vert_none (line : Str) (e fuel idx : Nat)
    (h : idx < line.length) (hv : isVert (line.get ⟨idx, h⟩) = true) :
    rightScan line e (fuel + 1) idx none =
      rightScan line e fuel (idx + 1) (some (idx, Nat.dist idx e)) := by
  simp only [rightScan]
  rw [dif_pos h, if_pos hv]

theorem rightScan_vert_some (line : Str) (e fuel idx bi bd : Nat)
    (h : idx < line.length) (hv : isVert (line.get ⟨idx, h⟩) = true) :
    rightScan line e (fuel + 1) idx (some (bi, bd)) =
      if Nat.dist idx e < bd then
        rightScan line e fuel (idx + 1) (some (idx, Nat.dist idx e))
      else if Nat.dist idx e > bd then some (bi, bd)
      else rightScan line e fuel (idx + 1) (some (bi, bd)) := by
  simp only [rightScan]
  rw [dif_pos h, if_pos hv]

/-- The right-border scan computes the earliest candidate at minimal distance
from the expected column: the `break` once the distance starts increasing
never discards a better candidate. -/
theorem rightScan_argmin (line : Str) (e li : Nat) :
    ∀ fuel idx best,
      li < idx →
      line.length ≤ fuel + idx →
      (match best with
       | none => ∀ c, isCand line li c → c < idx → False
       | some q => isCand line li q.1 ∧ q.1 < idx ∧ q.2 = Nat.dist q.1 e ∧
           ∀ c, isCand line li c → c < idx →
             q.2 ≤ Nat.dist c e ∧ (Nat.dist c e = q.2 → q.1 ≤ c)) →
      (match rightScan line e fuel idx best with
       | none => ∀ c, isCand line li c → False
       | some q => isCand line li q.1 ∧ q.2 = Nat.dist q.1 e ∧
           ∀ c, isCand line li c → q.2 ≤ Nat.dist c e ∧
             (Nat.dist c e = q.2 → q.1 ≤ c)) := by
  intro fuel
  induction fuel with
  | zero =>
    intro idx best hli hsuf hinv
    cases best with
    | none =>
      intro c hc
      obtain ⟨hl, _⟩ := (vertAt_iff line c).mp hc.2
      exact hinv c hc (by omega)
    | some q =>
      obtain ⟨h1, h2, h3, h4⟩ := hinv
      refine ⟨h1, h3, ?_⟩
      intro c hc
      obtain ⟨hl, _⟩ := (vertAt_iff line c).mp hc.2
      exact h4 c hc (by omega)
  | succ fuel ih =>
    intro idx best hli hsuf hinv
    by_cases h : idx < line.length
    · by_cases hv : isVert (line.get ⟨idx, h⟩) = true
      · cases best with
        | none =>
          rw [rightScan_vert_none line e fuel idx h hv]
          apply ih (idx + 1) _ (by omega) (by omega)
          refine ⟨⟨hli, (vertAt_iff line idx).mpr ⟨h, hv⟩⟩, by omega, rfl, ?_⟩
          intro c hc hclt
          by_cases hcx : c < idx
          · exact absurd (hinv c hc hcx) (fun hh => hh)
          · obtain rfl : c = idx := by omega
            exact ⟨Nat.le_refl _, fun _ => Nat.le_refl _⟩
        | some q =>
          obtain ⟨bi, bd⟩ := q
          obtain ⟨hq1, hq2, hq3, hq4⟩ := hinv
          have hq1a : isCand line li bi := hq1
          have hq2a : bi < idx := hq2
          have hq3a : bd = Nat.dist bi e := hq3
          have hq4a : ∀ c, isCand line li c → c < idx →
              bd ≤ Nat.dist c e ∧ (Nat.dist c e = bd → bi ≤ c) := hq4
          rw [rightScan_vert_some line e fuel idx bi bd h hv]
          by_cases hlt : Nat.dist idx e < bd
          · rw [if_pos hlt]
            apply ih (idx + 1) _ (by omega) (by omega)
            refine ⟨⟨hli, (vertAt_iff line idx).mpr ⟨h, hv⟩⟩, by omega, rfl, ?_⟩
            intro c hc hclt
            by_cases hcx : c < idx
            · have h5 := hq4a c hc hcx
              constructor
              · show Nat.dist idx e ≤ Nat.dist c e
                omega
              · show Nat.dist c e = Nat.dist idx e → idx ≤ c
                intro hcd
                have := h5.1
                omega
            · obtain rfl : c = idx := by omega
              exact ⟨Nat.le_refl _, fun _ => Nat.le_refl _⟩
          · rw [if_neg hlt]
            by_cases hgt : Nat.dist idx e > bd
            · rw [if_pos hgt]
              refine ⟨hq1, hq3, ?_⟩
              intro c hc
              by_cases hcx : c < idx
              · exact hq4 c hc hcx
              · have hce : idx ≤ c := by omega
                have e1 : Nat.dist idx e = idx - e + (e - idx) := rfl
                have e2 : Nat.dist bi e = bi - e + (e - bi) := rfl
                have e3 : Nat.dist c e = c - e + (e - c) := rfl
                rw [e1] at hgt
                rw [e2] at hq3a
                constructor
                · show bd ≤ Nat.dist c e
                  rw [e3]
                  omega
                · show Nat.dist c e = bd → bi ≤ c
                  rw [e3]
                  omega
            · rw [if_neg hgt]
              apply ih (idx + 1) _ (by omega) (by omega)
              refine ⟨hq1, ?_, hq3, ?_⟩
              · show bi < idx + 1
                omega
              · intro c hc hclt
                by_cases hcx : c < idx
                · exact hq4 c hc hcx
                · obtain rfl : c = idx := by omega
                  constructor
                  · show bd ≤ Nat.dist c e
                    omega
                  · show Nat.dist c e = bd → bi ≤ c
                    intro hcd
                    omega
      · rw [rightScan_notvert line e fuel idx best h hv]
        apply ih (idx + 1) best (by omega) (by omega)
        cases best with
        | none =>
          intro c hc hclt
          by_cases hcx : c < idx
          · exact hinv c hc hcx
          · obtain rfl : c = idx := by omega
            obtain ⟨hh, hvv⟩ := (vertAt_iff line c).mp hc.2
            exact absurd hvv hv
        | some q =>
          obtain ⟨hq1, hq2, hq3, hq4⟩ := hinv
          refine ⟨hq1, by omega, hq3, ?_⟩
          intro c hc hclt
          by_cases hcx : c < idx
          · exact hq4 c hc hcx
          · obtain rfl : c = idx := by omega
            obtain ⟨hh, hvv⟩ := (vertAt_iff line c).mp hc.2
            exact absurd hvv hv
    · rw [rightScan_oob line e fuel idx best h]
      cases best with
      | none =>
        intro c hc
        obtain ⟨hh, _⟩ := (vertAt_iff line c).mp hc.2
        exact hinv c hc (by omega)
      | some q =>
        obtain ⟨hq1, hq2, hq3, hq4⟩ := hinv
        refine ⟨hq1, hq3, ?_⟩
        intro c hc
        obtain ⟨hh, _⟩ := (vertAt_iff line c).mp hc.2
        exact hq4 c hc (by omega)

/-- The chosen right border is the earliest candidate nearest the expected
column `left_idx + target_width - 1`; when no candidate exists the search
fails. -/
theorem findRight_spec (line : Str) (li tw : Nat) :
    (findRight line li tw = none → ∀ c, isCand line li c → False) ∧
    (∀ ri, findRight line li tw = some ri →
      isCand line li ri ∧
      ∀ c, isCand line li c →
        Nat.dist ri (li + tw - 1) ≤ Nat.dist c (li + tw - 1) ∧
        (Nat.dist c (li + tw - 1) = Nat.dist ri (li + tw - 1) → ri ≤ c)) := by
  have h := rightScan_argmin line (li + tw - 1) li (line.length + 1) (li + 1)
    none (by omega) (by omega) (fun c hc hlt => by obtain ⟨h1, _⟩ := hc; omega)
  cases hrs : rightScan line (li + tw - 1) (line.length + 1) (li + 1) none with
  | none =>
    rw [hrs] at h
    constructor
    · intro _ c hc
      exact h c hc
    · intro ri hri
      simp [findRight, hrs] at hri
  | some q =>
    rw [hrs] at h
    constructor
    · intro hn
      simp [findRight, hrs] at hn
    · intro ri hri
      simp only [findRight, hrs, Option.map_some'] at hri
      obtain rfl : q.1 = ri := Option.some.inj hri
      obtain ⟨h1, h2, h3⟩ := h
      refine ⟨h1, ?_⟩
      intro c hc
      have h4 := h3 c hc
      rw [h2] at h4
      exact h4

theorem displayWidth_eq_length (s : Str) (h : allNarrow s) :
    displayWidth s = s.length := by
  induction s with
  | nil => rfl
  | cons c t ih =>
    have hc : isWideChar c = false := h c (List.mem_cons_self ..)
    simp only [displayWidth, charWidth, hc, Bool.false_eq_true, if_false,
      List.length_cons]
    rw [ih (fun x hx => h x (List.mem_cons_of_mem _ hx))]
    omega

theorem trailCount_dropLast (s : Str) (h : s.getLast? = some ' ') :
    trailCount s = trailCount s.dropLast + 1 := by
  have hne : s ≠ [] := by
    intro hc
    subst hc
    simp at h
  have hlast : s.getLast hne = ' ' := by
    rwa [List.getLast?_eq_getLast s hne, Option.some.injEq] at h
  have hs : s.dropLast ++ [s.getLast hne] = s := List.dropLast_append_getLast hne
  unfold trailCount
  conv_lhs => rw [← hs]
  rw [List.reverse_append, hlast]
  simp

theorem trailCount_zero_of_last_ne (s : Str) (c : Char)
    (h : s.getLast? = some c) (hc : c ≠ ' ') : trailCount s = 0 := by
  have hne : s ≠ [] := by
    intro hx
    subst hx
    simp at h
  have hlast : s.getLast hne = c := by
    rwa [List.getLast?_eq_getLast s hne, Option.some.injEq] at h
  have hs : s.dropLast ++ [s.getLast hne] = s := List.dropLast_append_getLast hne
  unfold trailCount
  conv_lhs => rw [← hs]
  rw [List.reverse_append, hlast]
  simp [hc]

theorem trimTrail_length :
    ∀ (fuel : Nat) (s : Str) (target : Nat), s.length ≤ fuel → allNarrow s →
      target ≤ s.length → s.length ≤ target + trailCount s →
      (trimTrail fuel s target).length = target := by
  intro fuel
  induction fuel with
  | zero =>
    intro s target hf _ ht hc
    have : s.length = 0 := by omega
    simp only [trimTrail]
    omega
  | succ fuel ih =>
    intro s target hf hn ht hc
    simp only [trimTrail]
    split
    · rename_i hcond
      obtain ⟨hdw, hlast⟩ := hcond
      rw [displayWidth_eq_length s hn] at hdw
      have htc := trailCount_dropLast s hlast
      apply ih s.dropLast target
      · rw [List.length_dropLast]; omega
      · intro x hx
        exact hn x (List.dropLast_subset s hx)
      · rw [List.length_dropLast]; omega
      · rw [List.length_dropLast]; omega
    · rename_i hcond
      rw [displayWidth_eq_length s hn] at hcond
      by_cases hgt : s.length > target
      · exfalso
        have hne : s ≠ [] := by
          intro hx
          rw [hx] at hgt
          simp only [List.length_nil] at hgt
          omega
        obtain ⟨c, hcl⟩ : ∃ c, s.getLast? = some c := by
          cases hx : s.getLast? with
          | none => exact absurd (List.getLast?_eq_none_iff.mp hx) hne
          | some c => exact ⟨c, rfl⟩
        by_cases hsp : c = ' '
        · subst hsp
          exact hcond ⟨hgt, hcl⟩
        · have := trailCount_zero_of_last_ne s c hcl hsp
          omega
      · omega

theorem padOrTrim_length (s : Str) (target : Nat) (hn : allNarrow s)
    (hfit : s.length ≤ target + trailCount s) :
    (padOrTrim s target).length = target := by
  unfold padOrTrim
  rw [displayWidth_eq_length s hn]
  split
  · simp
    omega
  · split
    · rename_i h1 h2
      rw [← displayWidth_eq_length s hn] at h2
      rw [displayWidth_eq_length s hn] at h2
      exact trimTrail_length s.length s target (Nat.le_refl _) hn (by omega) hfit
    · omega

/- ----------------- reassembly lemmas ----------------- -/

theorem fixPre_length (line : Str) (lcol li : Nat) (hli : li ≤ line.length) :
    (fixPre line lcol li).length = lcol := by
  unfold fixPre
  split
  · rename_i hgt
    simp only [List.length_take]
    omega
  · split
    · rename_i hngt hlt
      simp only [List.length_append, List.length_take, List.length_replicate]
      omega
    · rename_i hngt hnlt
      simp only [List.length_take]
      omega

theorem getO_mid_left (pre : Str) (x : Char) (rest : Str) :
    getO (pre ++ x :: rest) pre.length = some x := by
  have h := getO_append_right pre (x :: rest) 0
  simpa using h

theorem getO_mid_right (pre mid suf : Str) (x y : Char) :
    getO (pre ++ (x :: mid ++ [y]) ++ suf) (pre.length + (mid.length + 1)) = some y := by
  rw [List.append_assoc, getO_append_right]
  show getO ((mid ++ [y]) ++ suf) mid.length = some y
  rw [List.append_assoc]
  show getO (mid ++ y :: suf) mid.length = some y
  exact getO_mid_left mid y suf

theorem fixContentLine_eq (line : Str) (lcol tw li ri : Nat)
    (hlen : ¬ lcol ≥ line.length)
    (hli : findLeft line lcol = some li)
    (hri : findRight line li tw = some ri)
    (hlival : li < line.length) (hrival : ri < line.length) :
    fixContentLine line lcol tw =
      some (fixAssemble line lcol tw li ri (line.get ⟨li, hlival⟩)
        (line.get ⟨ri, hrival⟩)) := by
  simp only [fixContentLine, if_neg hlen, hli, hri,
    getO_eq_get line li hlival, getO_eq_get line ri hrival, Option.some_bind]

/- ----------------- normalization lemmas (C10) ----------------- -/

theorem lookupC_mem {c : Char} {v : Str} :
    ∀ {ps : List (Char × Str)}, lookupC c ps = some v → (c, v) ∈ ps := by
  intro ps
  induction ps with
  | nil => intro h; simp [lookupC] at h
  | cons p rest ih =>
    intro h
    obtain ⟨k, w⟩ := p
    simp only [lookupC] at h
    split at h
    · rename_i hk
      subst hk
      obtain rfl : w = v := Option.some.inj h
      exact List.mem_cons_self ..
    · exact List.mem_cons_of_mem _ (ih h)

/-- Every replacement string in the normalization table consists of characters
that are not themselves keys of the table. -/
theorem norm_values_keyfree :
    ∀ p ∈ normPairs, ∀ x ∈ p.2, lookupC x normPairs = none := by decide

theorem normalize_append (s t : Str) :
    normalizeString (s ++ t) = normalizeString s ++ normalizeString t := by
  induction s with
  | nil => rfl
  | cons c rest ih => simp [normalizeString, ih]

theorem normalize_of_keyfree (s : Str)
    (h : ∀ x ∈ s, lookupC x normPairs = none) : normalizeString s = s := by
  induction s with
  | nil => rfl
  | cons c rest ih =>
    have hc : normMap c = [c] := by
      unfold normMap
      rw [h c (List.mem_cons_self ..)]
    simp only [normalizeString, hc]
    rw [ih (fun x hx => h x (List.mem_cons_of_mem _ hx))]
    rfl

theorem normalize_normMap (c : Char) :
    normalizeString (normMap c) = normMap c := by
  cases hl : lookupC c normPairs with
  | none =>
    have hc : normMap c = [c] := by unfold normMap; rw [hl]
    rw [hc]
    simp only [normalizeString]
    have hc2 : normMap c = [c] := hc
    rw [hc2]
    rfl
  | some v =>
    have hc : normMap c = v := by unfold normMap; rw [hl]
    rw [hc]
    exact normalize_of_keyfree v (norm_values_keyfree (c, v) (lookupC_mem hl))

/- ----------------- misc list helpers ----------------- -/

theorem getO_take (l : List α) (n i : Nat) (h : i < n) :
    getO (l.take n) i = getO l i := by
  induction l generalizing n i with
  | nil => simp
  | cons a t ih =>
    cases n with
    | zero => omega
    | succ m =>
      cases i with
      | zero => rfl
      | succ k => exact ih m k (by omega)

theorem getO_drop (l : List α) (n i : Nat) :
    getO (l.drop n) i = getO l (n + i) := by
  induction l generalizing n with
  | nil => simp [getO]
  | cons a t ih =>
    cases n with
    | zero => rw [Nat.zero_add, List.drop_zero]
    | succ m =>
      show getO (t.drop m) i = getO (a :: t) (m + 1 + i)
      have : m + 1 + i = (m + i) + 1 := by omega
      rw [this]
      exact ih m

theorem map_eq_self {f : α → α} :
    ∀ {l : List α}, (∀ x ∈ l, f x = x) → l.map f = l := by
  intro l
  induction l with
  | nil => intro _; rfl
  | cons a t ih =>
    intro h
    simp only [List.map_cons]
    rw [h a (List.mem_cons_self ..), ih (fun x hx => h x (List.mem_cons_of_mem _ hx))]

theorem mem_range1 {s n x : Nat} : x ∈ List.range' s n → s ≤ x ∧ x < s + n := by
  induction n generalizing s with
  | zero => intro h; simp [List.range'] at h
  | succ m ih =>
    intro h
    rcases List.mem_cons.mp h with rfl | h
    · omega
    · have := ih h
      omega

/- ----------------- expandTabs / splitNl lemmas (C5) ----------------- -/

theorem expandTabs_no_tab (s : Str) (h : ∀ c ∈ s, c ≠ '\t') :
    ∀ col, expandTabs s col = s := by
  induction s with
  | nil => intro col; rfl
  | cons c rest ih =>
    intro col
    have hc : c ≠ '\t' := h c (List.mem_cons_self ..)
    have hr : ∀ x ∈ rest, x ≠ '\t' := fun x hx => h x (List.mem_cons_of_mem _ hx)
    simp only [expandTabs, hc, if_false]
    split
    · rw [ih hr 0]
    · rw [ih hr (col + 1)]

theorem mem_splitNl_mem {s : Str} :
    ∀ {l : Str}, l ∈ splitNl s → ∀ {c : Char}, c ∈ l → c ∈ s := by
  induction s with
  | nil =>
    intro l hl c hc
    simp [splitNl] at hl
    subst hl
    simp at hc
  | cons d rest ih =>
    intro l hl c hc
    simp only [splitNl] at hl
    split at hl
    · rcases List.mem_cons.mp hl with rfl | hl
      · simp at hc
      · exact List.mem_cons_of_mem _ (ih hl hc)
    · rename_i hd
      cases hsp : splitNl rest with
      | nil => exact absurd hsp (splitNl_ne_nil rest)
      | cons m ms =>
        rw [hsp] at hl
        rcases List.mem_cons.mp hl with rfl | hl
        · rcases List.mem_cons.mp hc with rfl | hc
          · exact List.mem_cons_self ..
          · exact List.mem_cons_of_mem _ (ih (hsp ▸ List.mem_cons_self ..) hc)
        · exact List.mem_cons_of_mem _ (ih (hsp ▸ List.mem_cons_of_mem _ hl) hc)

theorem findBordersGo_no_corner :
    ∀ (ls : Doc) (i : Nat), (∀ l ∈ ls, ∀ c ∈ l, isCorner c = false) →
      findBordersGo i ls = some [] := by
  intro ls
  induction ls with
  | nil => intro i _; rfl
  | cons l rest ih =>
    intro i h
    have h1 : findBorderSegments l i = some [] :=
      scanSegs_no_corner l i (fun c hc => h l (List.mem_cons_self ..) c hc)
        (l.length + 1) 0 (by omega)
    have h2 := ih (i + 1) (fun m hm c hc => h m (List.mem_cons_of_mem _ hm) c hc)
    simp only [findBordersGo, h1, h2]
    rfl

/-- With no matched boxes there is nothing to do. -/
theorem fixLines_no_corner (doc : Doc)
    (hnt : ∀ l ∈ doc, ∀ c ∈ l, c ≠ '\t')
    (hnc : ∀ l ∈ doc, ∀ c ∈ l, isCorner c = false) :
    fixLines doc = some doc := by
  unfold fixLines
  rw [map_eq_self (fun l hl => expandTabs_no_tab l (hnt l hl) 0)]
  show (findBorders doc).bind _ = some doc
  unfold findBorders
  rw [findBordersGo_no_corner doc 0 hnc]
  rfl

/- ----------------- totality (C9) ----------------- -/

theorem boxNeededGo_isSome (doc : Doc) (lcol tw : Nat) :
    ∀ lis, (∀ li ∈ lis, li < doc.length) →
      ∃ r, boxNeededGo doc lcol tw lis = some r := by
  intro lis
  induction lis with
  | nil => intro _; exact ⟨0, rfl⟩
  | cons li rest ih =>
    intro h
    obtain ⟨line, hline⟩ := Option.isSome_iff_exists.mp
      (getO_isSome_of_lt doc li (h li (List.mem_cons_self ..)))
    obtain ⟨r, hr⟩ := ih (fun x hx => h x (List.mem_cons_of_mem _ hx))
    exact ⟨max (lineNeeded line lcol tw) r,
      by simp only [boxNeededGo, hline, hr, Option.some_bind]⟩

theorem boxNeeded_isSome (doc : Doc) (top bot : BorderInfo)
    (h : bot.line_index ≤ doc.length) :
    ∃ r, boxNeeded doc top bot = some r := by
  apply boxNeededGo_isSome
  intro li hli
  have := mem_range1 hli
  omega

theorem extendBorder_spec (doc : Doc) (b : BorderInfo) (extra : Nat)
    (h : b.line_index < doc.length) :
    ∃ doc2 b2, extendBorder doc b extra = some (doc2, b2) ∧
      doc2.length = doc.length ∧ b2.line_index = b.line_index := by
  obtain ⟨bline, hbl⟩ := Option.isSome_iff_exists.mp
    (getO_isSome_of_lt doc b.line_index h)
  refine ⟨doc.set b.line_index
      (bline.take b.right_col ++
        List.replicate extra (findFill (slice bline (b.left_col + 1) b.right_col)) ++
        bline.drop b.right_col),
    { b with right_col := b.right_col + extra, width := b.width + extra },
    ?_, by simp, rfl⟩
  simp only [extendBorder, hbl, Option.some_bind]

theorem extendStep_spec (doc : Doc) (bs : List BorderInfo) (ext : Bool)
    (p : Nat × Nat) (h1 : p.1 < bs.length) (h2 : p.2 < bs.length)
    (hinv : ∀ b ∈ bs, b.line_index < doc.length) :
    ∃ doc2 bs2 ext2, extendStep (doc, bs, ext) p = some (doc2, bs2, ext2) ∧
      doc2.length = doc.length ∧ bs2.length = bs.length ∧
      (∀ b ∈ bs2, b.line_index < doc2.length) := by
  obtain ⟨top, htop⟩ := Option.isSome_iff_exists.mp (getO_isSome_of_lt bs p.1 h1)
  obtain ⟨bot, hbot⟩ := Option.isSome_iff_exists.mp (getO_isSome_of_lt bs p.2 h2)
  have htopl : top.line_index < doc.length := hinv top (mem_of_getO_eq_some htop)
  have hbotl : bot.line_index < doc.length := hinv bot (mem_of_getO_eq_some hbot)
  obtain ⟨needed, hneed⟩ := boxNeeded_isSome doc top bot (by omega)
  by_cases hgt : needed > top.width
  · obtain ⟨d1, b1, he1, hl1, hli1⟩ := extendBorder_spec doc top (needed - top.width) htopl
    obtain ⟨d2, b2, he2, hl2, hli2⟩ :=
      extendBorder_spec d1 bot (needed - top.width) (by omega)
    refine ⟨d2, (bs.set p.1 b1).set p.2 b2, true, ?_, by omega, by simp, ?_⟩
    · simp only [extendStep, htop, hbot, hneed, Option.some_bind, if_pos hgt,
        he1, he2]
    · intro b hb
      rcases List.mem_or_eq_of_mem_set hb with hb | rfl
      · rcases List.mem_or_eq_of_mem_set hb with hb | rfl
        · have := hinv b hb; omega
        · rw [hli1]; omega
      · rw [hli2]; omega
  · refine ⟨doc, bs, ext, ?_, rfl, rfl, hinv⟩
    simp only [extendStep, htop, hbot, hneed, Option.some_bind, if_neg hgt]

theorem extendPass_spec (boxes : List (Nat × Nat)) :
    ∀ (doc : Doc) (bs : List BorderInfo) (ext : Bool),
    (∀ p ∈ boxes, p.1 < bs.length ∧ p.2 < bs.length) →
    (∀ b ∈ bs, b.line_index < doc.length) →
    ∃ doc2 bs2 ext2, extendPass (doc, bs, ext) boxes = some (doc2, bs2, ext2) ∧
      doc2.length = doc.length ∧ bs2.length = bs.length ∧
      (∀ b ∈ bs2, b.line_index < doc2.length) := by
  induction boxes with
  | nil => intro doc bs ext _ hinv; exact ⟨doc, bs, ext, rfl, rfl, rfl, hinv⟩
  | cons p rest ih =>
    intro doc bs ext hb hinv
    obtain ⟨d2, bs2, e2, hstep, hdl, hbl, hinv2⟩ :=
      extendStep_spec doc bs ext p (hb p (List.mem_cons_self ..)).1
        (hb p (List.mem_cons_self ..)).2 hinv
    obtain ⟨d3, bs3, e3, hrest, hdl3, hbl3, hinv3⟩ :=
      ih d2 bs2 e2
        (fun q hq => by
          have := hb q (List.mem_cons_of_mem _ hq)
          omega) hinv2
    refine ⟨d3, bs3, e3, ?_, by omega, by omega, hinv3⟩
    simp only [extendPass, hstep, Option.some_bind, hrest]

theorem fixContentLine_isSome (line : Str) (lcol tw : Nat) :
    ∃ r, fixContentLine line lcol tw = some r := by
  by_cases hlen : lcol ≥ line.length
  · exact ⟨line, by simp only [fixContentLine, if_pos hlen]⟩
  · cases hfl : findLeft line lcol with
    | none => exact ⟨line, by simp only [fixContentLine, if_neg hlen, hfl]⟩
    | some li =>
      cases hfr : findRight line li tw with
      | none => exact ⟨line, by simp only [fixContentLine, if_neg hlen, hfl, hfr]⟩
      | some ri =>
        have hli := (findLeft_spec line lcol li hfl).1
        have hric : isCand line li ri := ((findRight_spec line li tw).2 ri hfr).1
        obtain ⟨hrl, _⟩ := (vertAt_iff line ri).mp hric.2
        obtain ⟨lc, hlc⟩ := Option.isSome_iff_exists.mp (getO_isSome_of_lt line li hli)
        obtain ⟨rc, hrc⟩ := Option.isSome_iff_exists.mp (getO_isSome_of_lt line ri hrl)
        exact ⟨fixAssemble line lcol tw li ri lc rc,
          by simp only [fixContentLine, if_neg hlen, hfl, hfr, hlc, hrc,
            Option.some_bind]⟩

theorem alignLineBoxes_spec (li : Nat) :
    ∀ (boxes : List (BorderInfo × BorderInfo)) (doc : Doc), li < doc.length →
      ∃ d2, alignLineBoxes li doc boxes = some d2 ∧ d2.length = doc.length := by
  intro boxes
  induction boxes with
  | nil => intro doc h; exact ⟨doc, rfl, rfl⟩
  | cons b rest ih =>
    intro doc h
    obtain ⟨line, hline⟩ := Option.isSome_iff_exists.mp (getO_isSome_of_lt doc li h)
    obtain ⟨line2, hline2⟩ := fixContentLine_isSome line b.1.left_col b.1.width
    obtain ⟨d2, hrest, hlen⟩ := ih (doc.set li line2) (by simpa using h)
    refine ⟨d2, ?_, by simpa using hlen⟩
    simp only [alignLineBoxes, hline, hline2, Option.some_bind, hrest]

theorem alignLines_spec (sb : List (BorderInfo × BorderInfo)) :
    ∀ (keys : List Nat) (doc : Doc), (∀ k ∈ keys, k < doc.length) →
      ∃ d2, alignLines doc keys sb = some d2 ∧ d2.length = doc.length := by
  intro keys
  induction keys with
  | nil => intro doc _; exact ⟨doc, rfl, rfl⟩
  | cons li rest ih =>
    intro doc h
    obtain ⟨d2, hd2, hlen2⟩ :=
      alignLineBoxes_spec li
        (List.insertionSort spanLcolLe
          (sb.filter (fun b => decide (b.1.line_index < li ∧ li < b.2.line_index))))
        doc (h li (List.mem_cons_self ..))
    obtain ⟨d3, hd3, hlen3⟩ := ih d2
      (fun k hk => by
        have := h k (List.mem_cons_of_mem _ hk)
        omega)
    refine ⟨d3, ?_, by omega⟩
    simp only [alignLines, hd2, Option.some_bind, hd3]

theorem alignPass_spec (doc : Doc) (resolved : List (BorderInfo × BorderInfo))
    (h : ∀ b ∈ resolved, b.2.line_index ≤ doc.length) :
    ∃ d2, alignPass doc resolved = some d2 ∧ d2.length = doc.length := by
  apply alignLines_spec
  intro k hk
  have hk2 := (List.perm_insertionSort (α := Nat) (· ≤ ·) _).mem_iff.mp hk
  rw [List.mem_dedup] at hk2
  obtain ⟨rl, hrl, hkin⟩ := List.mem_flatten.mp hk2
  obtain ⟨b, hb, rfl⟩ := List.mem_map.mp hrl
  have hb2 : b ∈ resolved := (List.perm_insertionSort spanLe resolved).mem_iff.mp hb
  have h1 := mem_range1 hkin
  have h2 := h b hb2
  omega

theorem resolveBoxes_spec (bs : List BorderInfo) :
    ∀ (boxes : List (Nat × Nat)), (∀ p ∈ boxes, p.1 < bs.length ∧ p.2 < bs.length) →
      ∃ res, resolveBoxes bs boxes = some res ∧ ∀ b ∈ res, b.1 ∈ bs ∧ b.2 ∈ bs := by
  intro boxes
  induction boxes with
  | nil => intro _; exact ⟨[], rfl, by simp⟩
  | cons p rest ih =>
    intro h
    obtain ⟨tv, htv⟩ := Option.isSome_iff_exists.mp
      (getO_isSome_of_lt bs p.1 (h p (List.mem_cons_self ..)).1)
    obtain ⟨bv, hbv⟩ := Option.isSome_iff_exists.mp
      (getO_isSome_of_lt bs p.2 (h p (List.mem_cons_self ..)).2)
    obtain ⟨res, hres, hmem⟩ := ih (fun q hq => h q (List.mem_cons_of_mem _ hq))
    refine ⟨(tv, bv) :: res, ?_, ?_⟩
    · simp only [resolveBoxes, htv, hbv, Option.some_bind, hres]
    · intro b hb
      rcases List.mem_cons.mp hb with rfl | hb
      · exact ⟨mem_of_getO_eq_some htv, mem_of_getO_eq_some hbv⟩
      · exact hmem b hb

theorem fixLinesLoop_spec :
    ∀ (fuel : Nat) (doc : Doc),
      ∃ d2, fixLinesLoop fuel doc = some d2 ∧ d2.length = doc.length := by
  intro fuel
  induction fuel with
  | zero => intro doc; exact ⟨doc, rfl, rfl⟩
  | succ fuel ih =>
    intro doc
    obtain ⟨bs, hbs, hval, _⟩ := findBorders_spec doc
    have hsortmem : ∀ b ∈ sortBorders bs, b.line_index < doc.length := by
      intro b hb
      exact (hval b ((List.perm_insertionSort borderLe bs).mem_iff.mp hb)).1
    obtain ⟨hBoxAll, _, _⟩ := matchBoxesIdx_spec doc (sortBorders bs)
    have hboxbounds : ∀ p ∈ matchBoxesIdx doc (sortBorders bs),
        p.1 < (sortBorders bs).length ∧ p.2 < (sortBorders bs).length := by
      intro p hp
      obtain ⟨ha, hb2, _⟩ := hBoxAll p hp
      exact ⟨by omega, hb2⟩
    by_cases hempty : (matchBoxesIdx doc (sortBorders bs)).isEmpty
    · refine ⟨doc, ?_, rfl⟩
      simp only [fixLinesLoop, hbs, Option.some_bind, hempty, if_true]
    · obtain ⟨d2, bs2, e2, hext, hdl, hbl, hinv2⟩ :=
        extendPass_spec (matchBoxesIdx doc (sortBorders bs)) doc (sortBorders bs)
          false hboxbounds hsortmem
      cases he : e2 with
      | true =>
        obtain ⟨d3, h3, hlen3⟩ := ih d2
        refine ⟨d3, ?_, by omega⟩
        rw [he] at hext
        simp only [fixLinesLoop, hbs, Option.some_bind, hempty, if_false,
          Bool.false_eq_true, hext, if_true, h3]
      | false =>
        rw [he] at hext
        obtain ⟨resolved, hres, hresmem⟩ :=
          resolveBoxes_spec bs2 (matchBoxesIdx doc (sortBorders bs))
            (fun p hp => by
              have := hboxbounds p hp
              omega)
        obtain ⟨d3, h3, hlen3⟩ := alignPass_spec d2 resolved
          (fun b hb => by
            have := hinv2 b.2 (hresmem b hb).2
            omega)
        refine ⟨d3, ?_, by omega⟩
        simp only [fixLinesLoop, hbs, Option.some_bind, hempty, if_false,
          hext, Bool.false_eq_true, hres, h3]

theorem fixLines_spec (doc : Doc) :
    ∃ d2, fixLines doc = some d2 ∧ d2.length = doc.length := by
  unfold fixLines
  obtain ⟨d2, h2, hl⟩ := fixLinesLoop_spec 2 (doc.map (fun l => expandTabs l 0))
  exact ⟨d2, h2, by simpa using hl⟩

theorem applyRegions_isSome :
    ∀ (regions : List (Nat × Nat)) (doc : Doc),
      ∃ d2, applyRegions doc regions = some d2 := by
  intro regions
  induction regions with
  | nil => intro doc; exact ⟨doc, rfl⟩
  | cons r rest ih =>
    intro doc
    obtain ⟨fixed, hfix, _⟩ := fixLines_spec (slice doc r.1 (r.2 + 1))
    obtain ⟨d2, h2⟩ := ih (doc.take r.1 ++ fixed ++ doc.drop (r.2 + 1))
    exact ⟨d2, by simp only [applyRegions, hfix, Option.some_bind, h2]⟩

/- ----------------- markdown-mode region facts (C4) ----------------- -/

theorem fenceScan_bounds (doc : Doc) (m : Str) :
    ∀ fuel j, j ≤ fenceScan doc m fuel j ∧
      fenceScan doc m fuel j ≤ max j doc.length := by
  intro fuel
  induction fuel with
  | zero => intro j; exact ⟨Nat.le_refl _, Nat.le_max_left _ _⟩
  | succ fuel ih =>
    intro j
    simp only [fenceScan]
    split
    · rename_i h
      split
      · exact ⟨Nat.le_refl _, Nat.le_max_left _ _⟩
      · have := ih (j + 1)
        exact ⟨by omega, by omega⟩
    · exact ⟨Nat.le_refl _, Nat.le_max_left _ _⟩

theorem findFences_bounds (doc : Doc) :
    ∀ fuel i, ∀ r ∈ findFences doc fuel i, r.1 ≤ r.2 + 1 ∧ r.2 < doc.length := by
  intro fuel
  induction fuel with
  | zero => intro i r hr; simp [findFences] at hr
  | succ fuel ih =>
    intro i r hr
    simp only [findFences] at hr
    split at hr
    · rename_i h
      split at hr
      · exact ih (i + 1) r hr
      · rename_i m hm
        split at hr
        · rename_i hclosed
          have hsc := fenceScan_bounds doc m (doc.length + 1) (i + 1)
          split at hr
          · rcases List.mem_cons.mp hr with rfl | hr
            · constructor
              · show i + 1 ≤ (fenceScan doc m (doc.length + 1) (i + 1) - 1) + 1
                omega
              · show fenceScan doc m (doc.length + 1) (i + 1) - 1 < doc.length
                omega
            · exact ih _ r hr
          · exact ih _ r hr
        · split at hr
          · rcases List.mem_cons.mp hr with rfl | hr
            · exact ⟨by omega, by omega⟩
            · exact ih _ r hr
          · exact ih _ r hr
    · simp at hr

theorem pairwise_filterMap {α β : Type} {R : β → β → Prop} {S : α → α → Prop}
    (f : α → Option β)
    (h : ∀ a b, S a b → ∀ x ∈ f a, ∀ y ∈ f b, R x y) :
    ∀ {l : List α}, l.Pairwise S → (l.filterMap f).Pairwise R := by
  intro l
  induction l with
  | nil => intro _; simp
  | cons a t ih =>
    intro hp
    have hp2 := List.pairwise_cons.mp hp
    rw [List.filterMap_cons]
    cases hfa : f a with
    | none => exact ih hp2.2
    | some b =>
      refine List.pairwise_cons.mpr ⟨?_, ih hp2.2⟩
      intro y hy
      obtain ⟨x, hx, hfx⟩ := List.mem_filterMap.mp hy
      exact h a x (hp2.1 x hx) b (by rw [hfa]; rfl) y (by rw [hfx]; rfl)

theorem unfencedBoxLines_facts (doc : Doc) (fences : List (Nat × Nat)) :
    (∀ x ∈ unfencedBoxLines doc fences, x < doc.length) ∧
      (unfencedBoxLines doc fences).Pairwise (· < ·) := by
  constructor
  · intro x hx
    obtain ⟨p, hp, hfp⟩ := List.mem_filterMap.mp hx
    have := enumFrom_mem hp
    split at hfp
    · obtain rfl : p.1 = x := Option.some.inj hfp
      have h2 := lt_of_getO_eq_some (by simpa using this.2)
      exact h2
    · simp at hfp
  · apply pairwise_filterMap
    · intro a b hab x hx y hy
      split at hx
      · obtain rfl : a.1 = x := Option.some.inj (by simpa using hx)
        split at hy
        · obtain rfl : b.1 = y := Option.some.inj (by simpa using hy)
          exact hab
        · simp at hy
      · simp at hx
    · exact enumFrom_pairwise doc 0

theorem autoRegionsGo_bounds (n : Nat) :
    ∀ (rest : List Nat) (s e : Nat), s ≤ e → e < n →
      (∀ x ∈ rest, e < x ∧ x < n) → rest.Pairwise (· < ·) →
      ∀ r ∈ autoRegionsGo rest s e, r.1 ≤ r.2 ∧ r.2 < n := by
  intro rest
  induction rest with
  | nil =>
    intro s e hse hen _ _ r hr
    simp only [autoRegionsGo, List.mem_singleton] at hr
    subst hr
    exact ⟨hse, hen⟩
  | cons idx t ih =>
    intro s e hse hen hall hpw r hr
    have hidx := hall idx (List.mem_cons_self ..)
    have hpw2 := List.pairwise_cons.mp hpw
    simp only [autoRegionsGo] at hr
    split at hr
    · exact ih s idx (by omega) (by omega)
        (fun x hx => ⟨hpw2.1 x hx, (hall x (List.mem_cons_of_mem _ hx)).2⟩)
        hpw2.2 r hr
    · rcases List.mem_cons.mp hr with rfl | hr
      · exact ⟨hse, hen⟩
      · exact ih idx idx (Nat.le_refl _) (by omega)
          (fun x hx => ⟨hpw2.1 x hx, (hall x (List.mem_cons_of_mem _ hx)).2⟩)
          hpw2.2 r hr

theorem mdRegions_bounds (lines : Doc) :
    ∀ r ∈ mdRegions lines, r.1 ≤ r.2 + 1 ∧ r.2 < lines.length := by
  intro r hr
  rcases List.mem_append.mp hr with hr | hr
  · exact findFences_bounds lines (lines.length + 1) 0 r hr
  · obtain ⟨hub, hpw⟩ := unfencedBoxLines_facts lines (mdFences lines)
    unfold autoRegions at hr
    split at hr
    · simp at hr
    · rename_i c t heq
      have hc : c ∈ unfencedBoxLines lines (mdFences lines) := by
        rw [heq]; exact List.mem_cons_self ..
      have hpw2 : (c :: t).Pairwise (· < ·) := heq ▸ hpw
      have hpwt := List.pairwise_cons.mp hpw2
      have := autoRegionsGo_bounds lines.length t c c (Nat.le_refl _)
        (hub c hc)
        (fun x hx => ⟨hpwt.1 x hx, hub x (by rw [heq]; exact List.mem_cons_of_mem _ hx)⟩)
        hpwt.2 r hr
      exact ⟨by omega, this.2⟩

/- ----------------- region application preserves outside lines (C4) ----------------- -/

theorem applyRegions_preserve :
    ∀ (regions : List (Nat × Nat)) (doc : Doc) (d2 : Doc) (i : Nat),
      applyRegions doc regions = some d2 →
      (∀ r ∈ regions, r.1 ≤ r.2 + 1 ∧ r.2 < doc.length) →
      i < doc.length →
      (∀ r ∈ regions, ¬(r.1 ≤ i ∧ i ≤ r.2)) →
      getO d2 i = getO doc i ∧ d2.length = doc.length := by
  intro regions
  induction regions with
  | nil =>
    intro doc d2 i h _ _ _
    obtain rfl : doc = d2 := Option.some.inj h
    exact ⟨rfl, rfl⟩
  | cons r rest ih =>
    intro doc d2 i h hreg hi hout
    obtain ⟨fixed, hfix, hfl⟩ := fixLines_spec (slice doc r.1 (r.2 + 1))
    simp only [applyRegions, hfix, Option.some_bind] at h
    have hr := hreg r (List.mem_cons_self ..)
    have hslicelen : (slice doc r.1 (r.2 + 1)).length = r.2 + 1 - r.1 := by
      unfold slice
      simp only [List.length_take, List.length_drop]
      omega
    have htakelen : (doc.take r.1).length = r.1 := by
      simp only [List.length_take]
      omega
    have hdoclen :
        (doc.take r.1 ++ fixed ++ doc.drop (r.2 + 1)).length = doc.length := by
      simp only [List.length_append, List.length_drop, htakelen, hfl, hslicelen]
      omega
    obtain ⟨hget, hlen⟩ := ih (doc.take r.1 ++ fixed ++ doc.drop (r.2 + 1)) d2 i h
      (fun q hq => by
        have := hreg q (List.mem_cons_of_mem _ hq)
        omega)
      (by omega)
      (fun q hq => hout q (List.mem_cons_of_mem _ hq))
    refine ⟨?_, by omega⟩
    rw [hget]
    have houtr := hout r (List.mem_cons_self ..)
    by_cases hlt : i < r.1
    · rw [getO_append_left, getO_append_left (by omega), getO_take doc r.1 i hlt]
      simp only [List.length_append, htakelen, hfl, hslicelen]
      omega
    · have hgt : r.2 < i := by omega
      have hidx : i = ((doc.take r.1 ++ fixed).length) + (i - (r.2 + 1)) := by
        simp only [List.length_append, htakelen, hfl, hslicelen]
        omega
      conv_lhs => rw [hidx]
      rw [getO_append_right, getO_drop]
      congr 1
      omega

/- ----------------- fixAssemble border positions (C2) ----------------- -/

theorem getO_fixAssemble_left (line : Str) (lcol tw li ri : Nat) (lc rc : Char)
    (h : (fixPre line lcol li).length = lcol) :
    getO (fixAssemble line lcol tw li ri lc rc) lcol = some lc := by
  unfold fixAssemble
  rw [List.append_assoc]
  have h2 := getO_mid_left (fixPre line lcol li) lc
    ((padOrTrim (slice line (li + 1) ri) (tw - 2) ++ [rc]) ++ line.drop (ri + 1))
  rw [h] at h2
  exact h2

theorem getO_fixAssemble_right (line : Str) (lcol tw li ri : Nat) (lc rc : Char)
    (hpre : (fixPre line lcol li).length = lcol)
    (hinner : (padOrTrim (slice line (li + 1) ri) (tw - 2)).length = tw - 2)
    (htw : 2 ≤ tw) :
    getO (fixAssemble line lcol tw li ri lc rc) (lcol + tw - 1) = some rc := by
  unfold fixAssemble
  have h := getO_mid_right (fixPre line lcol li)
    (padOrTrim (slice line (li + 1) ri) (tw - 2)) (line.drop (ri + 1)) lc rc
  rw [hpre, hinner] at h
  have hidx : lcol + tw - 1 = lcol + (tw - 2 + 1) := by omega
  rw [hidx]
  exact h

/-- Claim C1 (code bug): `fix_ascii_art` is not idempotent.  On `c1In` the
first application triggers border extension in both of its two iterations and
returns without ever running the alignment pass (its first and third border
lines even end up with different widths); a second application extends further
and aligns, so `fix(fix(t)) ≠ fix(t)`, against the spec's stated idempotence
and its claim that two iterations suffice for convergence. -/
theorem c1_fix_not_idempotent_on_double_extension :
    fixAsciiArt c1In false false = some c1Once ∧
    fixAsciiArt c1Once false false = some c1Twice ∧
    c1Twice ≠ c1Once := ⟨by decide, by decide, by decide⟩

/-- Claim C2, counterexample: on `c2In` a box with `left_col = 0`,
`width = 10` is matched (border entries 0 and 1 of the sorted border list),
no extension occurs (the output equals the input), yet the content line
between top and bottom has no vertical border character at column 0 or at
column 9 — the aligner left it untouched because no left border was found. -/
theorem c2_width_invariant_counterexample :
    fixAsciiArt c2In false false = some c2In ∧
    findBorders (splitNl c2In) =
      some [BorderInfo.mk 0 0 9 10, BorderInfo.mk 2 0 9 10] ∧
    matchBoxesIdx (splitNl c2In)
      (sortBorders [BorderInfo.mk 0 0 9 10, BorderInfo.mk 2 0 9 10]) = [(0, 1)] ∧
    getO (splitNl c2In) 1 = some ("  hello   ".data) ∧
    vertAt ("  hello   ".data) 0 = false ∧
    vertAt ("  hello   ".data) 9 = false :=
  ⟨by decide, by decide, by decide, by decide, by decide, by decide⟩

/-- Claim C2 (amended): whenever the content aligner locates both a left and a
right border character on a line, and the interior between them consists of
single-column characters and fits into `width - 2` columns after removing
trailing spaces, the fixed line has vertical border characters at exactly
`left_col` and `left_col + width - 1` (by character count).  Lines on which a
border is not located are left untouched and need not satisfy the invariant. -/
theorem c2_located_borders_at_box_columns (line : Str) (lcol tw li ri : Nat)
    (hlc : lcol < line.length) (htw : 2 ≤ tw)
    (hli : findLeft line lcol = some li)
    (hri : findRight line li tw = some ri)
    (hnarrow : allNarrow (slice line (li + 1) ri))
    (hfit : (slice line (li + 1) ri).length ≤
      (tw - 2) + trailCount (slice line (li + 1) ri)) :
    ∃ out, fixContentLine line lcol tw = some out ∧
      (∃ c, getO out lcol = some c ∧ isVert c = true) ∧
      (∃ c, getO out (lcol + tw - 1) = some c ∧ isVert c = true) := by
  obtain ⟨hliL, hlivert⟩ := findLeft_spec line lcol li hli
  have hric : isCand line li ri := ((findRight_spec line li tw).2 ri hri).1
  obtain ⟨hriL, hrivert⟩ := (vertAt_iff line ri).mp hric.2
  have heq := fixContentLine_eq line lcol tw li ri (by omega) hli hri hliL hriL
  have hpre : (fixPre line lcol li).length = lcol :=
    fixPre_length line lcol li (by omega)
  have hinner : (padOrTrim (slice line (li + 1) ri) (tw - 2)).length = tw - 2 :=
    padOrTrim_length _ _ hnarrow hfit
  obtain ⟨hl2, hlv⟩ := hlivert
  refine ⟨_, heq, ⟨line.get ⟨li, hliL⟩, ?_, hlv⟩, ⟨line.get ⟨ri, hriL⟩, ?_, hrivert⟩⟩
  · exact getO_fixAssemble_left line lcol tw li ri _ _ hpre
  · exact getO_fixAssemble_right line lcol tw li ri _ _ hpre hinner htw

/-- Witness for C2 at the concrete line `"| ab |"` with a width-6 box at
column 0. -/
theorem c2_witness :
    ((0 : Nat) < ("| ab |".data).length ∧ (2 : Nat) ≤ 6 ∧
      findLeft ("| ab |".data) 0 = some 0 ∧
      findRight ("| ab |".data) 0 6 = some 5 ∧
      allNarrow (slice ("| ab |".data) 1 5) ∧
      (slice ("| ab |".data) 1 5).length ≤
        (6 - 2) + trailCount (slice ("| ab |".data) 1 5)) ∧
    (∃ out, fixContentLine ("| ab |".data) 0 6 = some out ∧
      (∃ c, getO out 0 = some c ∧ isVert c = true) ∧
      (∃ c, getO out (0 + 6 - 1) = some c ∧ isVert c = true)) :=
  ⟨⟨by decide, by decide, by decide, by decide, by decide, by decide⟩,
    c2_located_borders_at_box_columns ("| ab |".data) 0 6 0 5
      (by decide) (by decide) (by decide) (by decide) (by decide) (by decide)⟩

/-- Claim C3 (code bug): fixing deletes the non-space, non-border characters
`a` and `b` from the content line — the prefix truncation
`prefix = prefix[:left_col]` removes whatever precedes the left border when
the box shifts left, although its own comment says it trims trailing
spaces. -/
theorem c3_nonspace_chars_deleted_when_shifting :
    fixAsciiArt c3In false false = some ("+----+\n| h  |\n+----+".data) ∧
    'a' ∈ c3In ∧ 'a' ∉ ("+----+\n| h  |\n+----+".data) ∧
    isVert 'a' = false ∧ isCorner 'a' = false ∧ isHFill 'a' = false :=
  ⟨by decide, by decide, by decide, by decide, by decide, by decide⟩

/-- Claim C4, counterexample: with `markdown = true` on `"a\tb"` there are no
fenced or auto-detected regions at all, yet the single line is not returned
byte-for-byte: tab expansion (which runs before region selection) rewrites
it. -/
theorem c4_tab_expansion_counterexample :
    mdRegions (splitNl (expandTabs ("a\tb".data) 0)) = [] ∧
    fixAsciiArt ("a\tb".data) false true = some ("a   b".data) ∧
    ("a   b".data) ≠ ("a\tb".data) :=
  ⟨by decide, by decide, by decide⟩

/-- Claim C4 (amended): in markdown mode, every line lying outside all
recorded fenced-code regions and all auto-detected diagram regions appears in
the output byte-for-byte identical to the *tab-expanded* input line. -/
theorem c4_lines_outside_regions_unchanged (text : Str) (i : Nat)
    (hi : i < (splitNl (expandTabs text 0)).length)
    (hout : ∀ r ∈ mdRegions (splitNl (expandTabs text 0)), ¬(r.1 ≤ i ∧ i ≤ r.2)) :
    ∃ outLines,
      applyRegions (splitNl (expandTabs text 0))
        (mdRegions (splitNl (expandTabs text 0))) = some outLines ∧
      fixAsciiArt text false true = some (joinNl outLines) ∧
      getO outLines i = getO (splitNl (expandTabs text 0)) i := by
  obtain ⟨outLines, hOL⟩ :=
    applyRegions_isSome (mdRegions (splitNl (expandTabs text 0)))
      (splitNl (expandTabs text 0))
  obtain ⟨hget, _⟩ := applyRegions_preserve _ _ _ i hOL
    (mdRegions_bounds (splitNl (expandTabs text 0))) hi hout
  refine ⟨outLines, hOL, ?_, hget⟩
  show (applyRegions (splitNl (expandTabs text 0))
      (mdRegions (splitNl (expandTabs text 0)))).map joinNl = some (joinNl outLines)
  rw [hOL]
  rfl

/-- Witness for C4 at `"hello"`, line 0 (no regions at all). -/
theorem c4_witness :
    ((0 : Nat) < (splitNl (expandTabs ("hello".data) 0)).length ∧
      (∀ r ∈ mdRegions (splitNl (expandTabs ("hello".data) 0)),
        ¬(r.1 ≤ 0 ∧ 0 ≤ r.2))) ∧
    (∃ outLines,
      applyRegions (splitNl (expandTabs ("hello".data) 0))
        (mdRegions (splitNl (expandTabs ("hello".data) 0))) = some outLines ∧
      fixAsciiArt ("hello".data) false true = some (joinNl outLines) ∧
      getO outLines 0 = getO (splitNl (expandTabs ("hello".data) 0)) 0) :=
  ⟨⟨by decide, by decide⟩,
    c4_lines_outside_regions_unchanged ("hello".data) 0 (by decide) (by decide)⟩

/-- Claim C5, counterexample: `"a\tb"` contains no corner character, yet
`fix_ascii_art` (normalize and markdown both false) changes it — tab
expansion runs before border detection. -/
theorem c5_tab_expansion_counterexample :
    (∀ c ∈ ("a\tb".data), isCorner c = false) ∧
    fixAsciiArt ("a\tb".data) false false = some ("a   b".data) ∧
    ("a   b".data) ≠ ("a\tb".data) :=
  ⟨by decide, by decide, by decide⟩

/-- Claim C5 (amended): text with no corner characters *and no tab
characters* is returned unchanged by `fix_ascii_art` with `normalize = false`
and `markdown = false`. -/
theorem c5_noop_on_borderless_tabfree (text : Str)
    (hnc : ∀ c ∈ text, isCorner c = false)
    (hnt : ∀ c ∈ text, c ≠ '\t') :
    fixAsciiArt text false false = some text := by
  have hexp : expandTabs text 0 = text := expandTabs_no_tab text hnt 0
  have hfix : fixLines (splitNl text) = some (splitNl text) :=
    fixLines_no_corner (splitNl text)
      (fun l hl c hc => hnt c (mem_splitNl_mem hl hc))
      (fun l hl c hc => hnc c (mem_splitNl_mem hl hc))
  show (fixLines (splitNl (expandTabs text 0))).map joinNl = some text
  rw [hexp, hfix]
  show some (joinNl (splitNl text)) = some text
  rw [joinNl_splitNl]

/-- Witness for C5 at `"hello world"`. -/
theorem c5_witness :
    ((∀ c ∈ ("hello world".data), isCorner c = false) ∧
      (∀ c ∈ ("hello world".data), c ≠ '\t')) ∧
    fixAsciiArt ("hello world".data) false false = some ("hello world".data) :=
  ⟨⟨by decide, by decide⟩,
    c5_noop_on_borderless_tabfree ("hello world".data) (by decide) (by decide)⟩

/-- Witness for C6 on two stacked boxes sharing border line 2: the shared
segment is bottom of the first box and top of the second, and the reuse guard
(vertical border on the line beneath) holds. -/
theorem c6_witness :
    findBorders (splitNl ("+--+\n|ab|\n+--+\n|cd|\n+--+".data)) = some c6bs ∧
    (((matchBoxesIdx (splitNl ("+--+\n|ab|\n+--+\n|cd|\n+--+".data))
        (sortBorders c6bs)).map Prod.fst).Nodup ∧
      ((matchBoxesIdx (splitNl ("+--+\n|ab|\n+--+\n|cd|\n+--+".data))
        (sortBorders c6bs)).map Prod.snd).Nodup ∧
      (∀ p ∈ matchBoxesIdx (splitNl ("+--+\n|ab|\n+--+\n|cd|\n+--+".data))
          (sortBorders c6bs),
        ∃ bt bb, getO (sortBorders c6bs) p.1 = some bt ∧
          getO (sortBorders c6bs) p.2 = some bb ∧
          bb.left_col = bt.left_col ∧ bb.width = bt.width ∧
          bt.line_index < bb.line_index ∧
          (p.1 ∈ (matchBoxesIdx (splitNl ("+--+\n|ab|\n+--+\n|cd|\n+--+".data))
              (sortBorders c6bs)).map Prod.snd →
            vertBelow (splitNl ("+--+\n|ab|\n+--+\n|cd|\n+--+".data))
              (bt.line_index + 1) bt.left_col = true))) :=
  ⟨by decide,
    c6_matcher_invariant (splitNl ("+--+\n|ab|\n+--+\n|cd|\n+--+".data)) c6bs
      (by decide)⟩

/-- Claim C7: every segment the border scanner emits starts and ends with a
corner character and is at least 3 characters wide; scanning resumes from the
closing corner so `"+---++---+"` yields exactly two segments; and an empty or
corner-free line yields an empty list. -/
theorem c7_scanner_segment_validity :
    (∀ (line : Str) (idx : Nat) (segs : List BorderInfo),
      findBorderSegments line idx = some segs →
      ∀ b ∈ segs, 3 ≤ b.width ∧ b.width = b.right_col - b.left_col + 1 ∧
        (∃ hl : b.left_col < line.length,
          isCorner (line.get ⟨b.left_col, hl⟩) = true) ∧
        (∃ hr : b.right_col < line.length,
          isCorner (line.get ⟨b.right_col, hr⟩) = true)) ∧
    (∃ segs, findBorderSegments ("+---++---+".data) 0 = some segs ∧
      segs.length = 2) ∧
    findBorderSegments ([] : Str) 0 = some [] ∧
    (∀ (line : Str) (idx : Nat), (∀ c ∈ line, isCorner c = false) →
      findBorderSegments line idx = some []) := by
  refine ⟨?_, ?_, rfl, ?_⟩
  · intro line idx segs hsegs b hb
    obtain ⟨segs2, h2, hval, _⟩ := scanSegs_spec line idx (line.length + 1) 0 (by omega)
    unfold findBorderSegments at hsegs
    rw [hsegs] at h2
    obtain rfl := Option.some.inj h2
    have hv := hval b hb
    have h1 := hv.2.1
    have h3 := hv.2.2.2.1
    exact ⟨by omega, h3, hv.2.2.2.2.2.1, hv.2.2.2.2.2.2⟩
  · exact ⟨[BorderInfo.mk 0 0 4 5, BorderInfo.mk 0 4 9 6], by decide, rfl⟩
  · intro line idx h
    exact scanSegs_no_corner line idx h (line.length + 1) 0 (by omega)

/-- Witness for C7 at the segment scanned from `"+--+"`. -/
theorem c7_witness :
    3 ≤ (BorderInfo.mk 0 0 3 4).width ∧
    (BorderInfo.mk 0 0 3 4).width =
      (BorderInfo.mk 0 0 3 4).right_col - (BorderInfo.mk 0 0 3 4).left_col + 1 ∧
    (∃ hl : (BorderInfo.mk 0 0 3 4).left_col < ("+--+".data).length,
      isCorner (("+--+".data).get ⟨(BorderInfo.mk 0 0 3 4).left_col, hl⟩) = true) ∧
    (∃ hr : (BorderInfo.mk 0 0 3 4).right_col < ("+--+".data).length,
      isCorner (("+--+".data).get ⟨(BorderInfo.mk 0 0 3 4).right_col, hr⟩) = true) :=
  c7_scanner_segment_validity.1 ("+--+".data) 0 [BorderInfo.mk 0 0 3 4]
    (by decide) (BorderInfo.mk 0 0 3 4) (by decide)

/-- Claim C8, counterexample: the aligner anchors the expected right column at
the *located* left border (`left_idx + width - 1`), not at
`left_col + width - 1` as the claim states.  On the line `"    | | b|"` of a
width-6 box at column 0 the left border is located at index 4; the scan picks
the border at index 9 although the border at index 6 is strictly nearer to
column `0 + 6 - 1 = 5`. -/
theorem c8_anchor_counterexample :
    findLeft ("    | | b|".data) 0 = some 4 ∧
    findRight ("    | | b|".data) 4 6 = some 9 ∧
    isCand ("    | | b|".data) 4 6 ∧
    Nat.dist 6 (0 + 6 - 1) < Nat.dist 9 (0 + 6 - 1) ∧
    fixAsciiArt ("+----+\n    | | b|\n+----+".data) false false =
      some ("+----+\n| | b|\n+----+".data) :=
  ⟨by decide, by decide, by decide, by decide, by decide⟩

/-- Claim C8 (amended): for every content line on which a left border was
located at `li`, the right border the aligner chooses is the vertical border
character after `li` whose position minimizes the distance to
`li + target_width - 1` (the located-left anchor the code deliberately uses),
ties broken toward the earlier candidate; when no vertical border character
follows `li` the line is left untouched. -/
theorem c8_right_border_nearest_to_located_left (line : Str) (lcol tw li : Nat)
    (hlc : lcol < line.length)
    (hli : findLeft line lcol = some li) :
    (∀ ri, findRight line li tw = some ri →
      isCand line li ri ∧
      ∀ c, isCand line li c →
        Nat.dist ri (li + tw - 1) ≤ Nat.dist c (li + tw - 1) ∧
        (Nat.dist c (li + tw - 1) = Nat.dist ri (li + tw - 1) → ri ≤ c)) ∧
    (findRight line li tw = none →
      (∀ c, ¬ isCand line li c) ∧ fixContentLine line lcol tw = some line) := by
  constructor
  · exact (findRight_spec line li tw).2
  · intro hnone
    refine ⟨fun c hc => (findRight_spec line li tw).1 hnone c hc, ?_⟩
    simp only [fixContentLine, if_neg (by omega : ¬ lcol ≥ line.length), hli, hnone]

/-- Witness for C8 at the line `"| a |"` with a width-5 box at column 0. -/
theorem c8_witness :
    ((0 : Nat) < ("| a |".data).length ∧ findLeft ("| a |".data) 0 = some 0) ∧
    ((∀ ri, findRight ("| a |".data) 0 5 = some ri →
      isCand ("| a |".data) 0 ri ∧
      ∀ c, isCand ("| a |".data) 0 c →
        Nat.dist ri (0 + 5 - 1) ≤ Nat.dist c (0 + 5 - 1) ∧
        (Nat.dist c (0 + 5 - 1) = Nat.dist ri (0 + 5 - 1) → ri ≤ c)) ∧
    (findRight ("| a |".data) 0 5 = none →
      (∀ c, ¬ isCand ("| a |".data) 0 c) ∧
      fixContentLine ("| a |".data) 0 5 = some ("| a |".data))) :=
  ⟨⟨by decide, by decide⟩,
    c8_right_border_nearest_to_located_left ("| a |".data) 0 5 0
      (by decide) (by decide)⟩

/-- Claim C9: totality of the core — for every input string and every setting
of the two flags, `fix_ascii_art` evaluates without hitting any failure
branch: no checked index access fails and no loop runs out of fuel, for
arbitrary (including orphan-border and border-free) input. -/
theorem c9_totality (text : Str) (n m : Bool) :
    ∃ out, fixAsciiArt text n m = some out := by
  cases m with
  | true =>
    obtain ⟨d2, h2⟩ :=
      applyRegions_isSome
        (mdRegions (splitNl (expandTabs (if n then normalizeString text else text) 0)))
        (splitNl (expandTabs (if n then normalizeString text else text) 0))
    refine ⟨joinNl d2, ?_⟩
    show (applyRegions (splitNl (expandTabs (if n then normalizeString text else text) 0))
        (mdRegions (splitNl (expandTabs (if n then normalizeString text else text) 0)))).map
        joinNl = some (joinNl d2)
    rw [h2]
    rfl
  | false =>
    obtain ⟨d2, h2, _⟩ :=
      fixLines_spec (splitNl (expandTabs (if n then normalizeString text else text) 0))
    refine ⟨joinNl d2, ?_⟩
    show (fixLines (splitNl (expandTabs (if n then normalizeString text else text) 0))).map
        joinNl = some (joinNl d2)
    rw [h2]
    rfl

/-- Claim C10: Unicode-to-ASCII normalization is idempotent — every
replacement value in the table consists only of characters that are not
themselves keys of the table. -/
theorem c10_normalize_idempotent (s : Str) :
    normalizeString (normalizeString s) = normalizeString s := by
  induction s with
  | nil => rfl
  | cons c rest ih =>
    show normalizeString (normMap c ++ normalizeString rest) = _
    rw [normalize_append, normalize_normMap, ih]
    rfl

end ACF
